import Mathlib

/-
Verification of the ragproxy retrieval-augmented proxy.

This file shallowly embeds the core data structures and algorithms of the
ragproxy repository (IDF store, feature extraction, rerank scoring, context
packing, streaming response interceptor) and proves or refutes the frozen
specification claims about them.

Modelling conventions:
* Go maps are modelled as association lists over Nat keys; map equality is
  extensional (lookup equality), matching Go map semantics.
* float64 arithmetic is modelled over the real numbers; `math.Log1p x` is
  `Real.log (1 + x)` and `math.Exp` is `Real.exp`.
* The external tokenizer is a parameter `tokenize : String → List Nat`
  (the spec treats tokenization as a pure function of the body string, and
  `getCachedTokenIDs` returns exactly the tokenization of the body).
* The xxhash n-gram fingerprint and the Go regexp engine are external
  libraries; they are modelled as abstract function parameters.
-/

namespace RagProxy

/-- Lookup in an association list (Go map read); returns the first binding. -/
def alGet {β : Type} : List (Nat × β) → Nat → Option β
  | [], _ => none
  | (k, v) :: rest, key => if k = key then some v else alGet rest key

/-- Insert-or-update in an association list (Go map write): updates the first
binding in place, otherwise appends a new binding. -/
def alSet {β : Type} : List (Nat × β) → Nat → β → List (Nat × β)
  | [], key, val => [(key, val)]
  | (k, v) :: rest, key, val =>
      if k = key then (k, val) :: rest else (k, v) :: alSet rest key val

/-- Deletion from an association list (Go `delete`). -/
def alErase {β : Type} (m : List (Nat × β)) (key : Nat) : List (Nat × β) :=
  m.filter (fun kv => kv.1 != key)

theorem alGet_alSet_self {β : Type} (m : List (Nat × β)) (k : Nat) (v : β) :
    alGet (alSet m k v) k = some v := by
  induction m with
  | nil => simp [alSet, alGet]
  | cons kv rest ih =>
      obtain ⟨k0, v0⟩ := kv
      by_cases h : k0 = k
      · simp [alSet, alGet, h]
      · simp [alSet, alGet, h, ih]

theorem alGet_alSet_ne {β : Type} (m : List (Nat × β)) (k key : Nat) (v : β)
    (h : k ≠ key) : alGet (alSet m key v) k = alGet m k := by
  have h2 : ¬ key = k := fun e => h e.symm
  induction m with
  | nil => simp [alSet, alGet, h2]
  | cons kv rest ih =>
      obtain ⟨k0, v0⟩ := kv
      by_cases hk : k0 = key
      · subst hk
        simp [alSet, alGet, h2]
      · by_cases hk2 : k0 = k
        · simp [alSet, alGet, hk, hk2, h2, h]
        · simp [alSet, alGet, hk, hk2, ih]

theorem alGet_alErase_self {β : Type} (m : List (Nat × β)) (k : Nat) :
    alGet (alErase m k) k = none := by
  induction m with
  | nil => simp [alErase, alGet]
  | cons kv rest ih =>
      obtain ⟨k0, v0⟩ := kv
      by_cases h : k0 = k
      · simpa [alErase, alGet, h] using ih
      · simpa [alErase, alGet, h] using ih

theorem alGet_alErase_ne {β : Type} (m : List (Nat × β)) (k key : Nat)
    (h : k ≠ key) : alGet (alErase m key) k = alGet m k := by
  have h2 : ¬ key = k := fun e => h e.symm
  induction m with
  | nil => simp [alErase, alGet]
  | cons kv rest ih =>
      obtain ⟨k0, v0⟩ := kv
      by_cases hk : k0 = key
      · subst hk
        simpa [alErase, alGet, h2] using ih
      · by_cases hk2 : k0 = k
        · subst hk2
          simp [alErase, alGet, hk, h]
        · simpa [alErase, alGet, hk, hk2] using ih

/-! ## The IDF store (src/src/idf.go)

The store keeps per-token and per-n-gram document frequencies and cached IDF
weights.  Token ids and n-gram fingerprints are Nat keys; the float64 IDF
weights live in an arbitrary value type `V` with a zero (instantiated with ℝ
and the concrete IDF formula where a claim depends on the numeric values). -/

/-- IDFStore (type definitions in the repository's struct file): document
frequencies `DF`, document count `N`, cached weights `IDF`, the n-gram
variants, and the total token count (an int64 in Go, clamped non-negative). -/
structure IDFStore (V : Type) where
  DF : List (Nat × Nat)
  N : Nat
  IDF : List (Nat × V)
  NgramDF : List (Nat × Nat)
  NgramIDF : List (Nat × V)
  TotalTokens : Int

/-- initEmptyIDFStore: the empty store. -/
def initEmptyIDFStore (V : Type) : IDFStore V :=
  ⟨[], 0, [], [], [], 0⟩

/-- A stored document as passed to addDocumentToIDF/removeDocumentFromIDF:
body text, token count (with reserve), and content hash. -/
structure Doc where
  body : String
  tokenCount : Nat
  hash : String
deriving DecidableEq

/-- One iteration of the token loop of updateDocumentInIDF for a single
(unseen) token id: adjust `DF[id]` according to `mode` (increment for +1,
decrement-clamped-at-zero for -1), then either prune the key (when the new
frequency is zero) or recompute its cached IDF value with formula `F` at the
already-updated document count `N` (zero when `N = 0`). -/
def updTok {V : Type} [Zero V] (F : Nat → Nat → V) (N : Nat) (mode : Int)
    (m : List (Nat × Nat) × List (Nat × V)) (id : Nat) :
    List (Nat × Nat) × List (Nat × V) :=
  let df0 := (alGet m.1 id).getD 0
  let DF1 :=
    if 0 < mode then alSet m.1 id (df0 + 1)
    else if mode < 0 then
      (if 0 < df0 then alSet m.1 id (df0 - 1) else m.1)
    else m.1
  let df := (alGet DF1 id).getD 0
  if df = 0 then (alErase DF1 id, alErase m.2 id)
  else (DF1, alSet m.2 id (if 0 < N then F N df else 0))

/-- The token loop of updateDocumentInIDF: iterate over the document's token
ids, skipping ids already seen (the per-document dedup set). -/
def procTokens {V : Type} [Zero V] (F : Nat → Nat → V) (N : Nat) (mode : Int) :
    List Nat → List Nat → (List (Nat × Nat) × List (Nat × V)) →
    List (Nat × Nat) × List (Nat × V)
  | [], _, m => m
  | id :: rest, seen, m =>
      if id ∈ seen then procTokens F N mode rest seen m
      else procTokens F N mode rest (id :: seen) (updTok F N mode m id)

/-- n-gram windows of a token-id sequence; mirrors the n-gram enumeration of
`ngramsIDs` in src/src/features.go (for n ≤ 1 each id is its own n-gram; a
string n-gram "10_20" is represented by the id list [10, 20], which the
underscore join encodes injectively). -/
def listNgrams (ids : List Nat) (n : Nat) : List (List Nat) :=
  if n ≤ 1 then ids.map (fun id => [id])
  else if ids.length < n then []
  else (List.range (ids.length - n + 1)).map (fun i => (ids.drop i).take n)

/-- Modelled from the spec: `ngramHashes(ids, n)` is called by
`updateDocumentInIDF` (src/src/idf.go line 181) but its definition is not
under src/; per the spec (§4.2, §9) it produces a stable 64-bit fingerprint of
each n-gram of the token sequence, the hash family being left to the
implementer.  The fingerprint is the abstract parameter `ngHash`. -/
def ngramHashes (ngHash : List Nat → Nat) (ids : List Nat) (n : Nat) :
    List Nat :=
  (listNgrams ids n).map ngHash

/-- updateDocumentInIDF (src/src/idf.go lines 108-218): adjust `N` and
`TotalTokens` (clamped non-negative, untouched when removing with `N = 0`),
then run the token loop over the document's ids and the n-gram loop over the
concatenated bigram and trigram fingerprints (one shared seen-set, exactly as
the `for _, n := range []int{2, 3}` loop does). -/
def updateDocumentInIDF {V : Type} [Zero V] (tokenize : String → List Nat)
    (F : Nat → Nat → V) (ngHash : List Nat → Nat) (d : Doc) (mode : Int)
    (st : IDFStore V) : IDFStore V :=
  let ids := tokenize d.body
  let N1 :=
    if 0 < mode then st.N + 1
    else if mode < 0 then (if 0 < st.N then st.N - 1 else st.N)
    else st.N
  let TT1 : Int :=
    if 0 < mode then st.TotalTokens + d.tokenCount
    else if mode < 0 then
      (if 0 < st.N then
        (if (d.tokenCount : Int) ≤ st.TotalTokens then
          st.TotalTokens - d.tokenCount else 0)
      else st.TotalTokens)
    else st.TotalTokens
  let tm := procTokens F N1 mode ids [] (st.DF, st.IDF)
  let nm := procTokens F N1 mode
    (ngramHashes ngHash ids 2 ++ ngramHashes ngHash ids 3) []
    (st.NgramDF, st.NgramIDF)
  ⟨tm.1, N1, tm.2, nm.1, nm.2, TT1⟩

/-- addDocumentToIDF: updateDocumentInIDF with mode +1. -/
def addDocumentToIDF {V : Type} [Zero V] (tokenize : String → List Nat)
    (F : Nat → Nat → V) (ngHash : List Nat → Nat) (d : Doc)
    (st : IDFStore V) : IDFStore V :=
  updateDocumentInIDF tokenize F ngHash d 1 st

/-- removeDocumentFromIDF: updateDocumentInIDF with mode -1 (the token-cache
eviction it also performs does not touch the IDF store). -/
def removeDocumentFromIDF {V : Type} [Zero V] (tokenize : String → List Nat)
    (F : Nat → Nat → V) (ngHash : List Nat → Nat) (d : Doc)
    (st : IDFStore V) : IDFStore V :=
  updateDocumentInIDF tokenize F ngHash d (-1) st

/-- The configured IDF formula (src/src/idf.go lines 165-176): BM25-style
`log1p((N - df + 0.5) / (df + 0.5))` when `use_bm25_idf`, otherwise the
legacy `log1p(N / (1 + df))`. -/
noncomputable def idfValue (useBM25 : Bool) (N df : Nat) : ℝ :=
  if useBM25 then Real.log (1 + (((N : ℝ) - (df : ℝ) + 0.5) / ((df : ℝ) + 0.5)))
  else Real.log (1 + ((N : ℝ) / (1 + (df : ℝ))))

/-- The document frequency a key ends with after one updTok step, as a
function of the mode and its old frequency: increment for add, decrement
clamped at zero for remove. -/
def dfStep (mode : Int) (df0 : Nat) : Nat :=
  if 0 < mode then df0 + 1
  else if mode < 0 then (if 0 < df0 then df0 - 1 else 0)
  else df0

theorem updTok_get_ne {V : Type} [Zero V] (F : Nat → Nat → V) (N : Nat)
    (mode : Int) (m : List (Nat × Nat) × List (Nat × V)) (id k : Nat)
    (h : k ≠ id) :
    alGet (updTok F N mode m id).1 k = alGet m.1 k ∧
    alGet (updTok F N mode m id).2 k = alGet m.2 k := by
  simp only [updTok]
  split_ifs <;>
    simp [alGet_alSet_ne _ _ _ _ h, alGet_alErase_ne _ _ _ h]

theorem updTok_get_self {V : Type} [Zero V] (F : Nat → Nat → V) (N : Nat)
    (mode : Int) (m : List (Nat × Nat) × List (Nat × V)) (id : Nat) :
    alGet (updTok F N mode m id).1 id =
      (if dfStep mode ((alGet m.1 id).getD 0) = 0 then none
       else some (dfStep mode ((alGet m.1 id).getD 0))) ∧
    alGet (updTok F N mode m id).2 id =
      (if dfStep mode ((alGet m.1 id).getD 0) = 0 then none
       else some (if 0 < N then F N (dfStep mode ((alGet m.1 id).getD 0))
                  else 0)) := by
  by_cases h1 : 0 < mode
  · simp [updTok, dfStep, h1, alGet_alSet_self, alGet_alErase_self]
  · by_cases h2 : mode < 0
    · by_cases h3 : 0 < (alGet m.1 id).getD 0
      · by_cases h4 : (alGet m.1 id).getD 0 - 1 = 0
        · simp [updTok, dfStep, h1, h2, h3, h4, alGet_alSet_self,
            alGet_alErase_self]
        · simp [updTok, dfStep, h1, h2, h3, h4, alGet_alSet_self,
            alGet_alErase_self]
      · have h5 : (alGet m.1 id).getD 0 = 0 := by omega
        simp [updTok, dfStep, h1, h2, h3, h5, alGet_alErase_self]
    · by_cases h3 : (alGet m.1 id).getD 0 = 0
      · simp [updTok, dfStep, h1, h2, h3, alGet_alErase_self]
      · cases hg : alGet m.1 id with
        | none => simp [hg] at h3
        | some v =>
            have hv : ¬ v = 0 := by simpa [hg] using h3
            simp [updTok, dfStep, h1, h2, h3, hg, hv, alGet_alSet_self]

theorem procTokens_get_notmem {V : Type} [Zero V] (F : Nat → Nat → V)
    (N : Nat) (mode : Int) (ids seen : List Nat)
    (m : List (Nat × Nat) × List (Nat × V)) (k : Nat) (hk : k ∉ ids) :
    alGet (procTokens F N mode ids seen m).1 k = alGet m.1 k ∧
    alGet (procTokens F N mode ids seen m).2 k = alGet m.2 k := by
  induction ids generalizing seen m with
  | nil => simp [procTokens]
  | cons id rest ih =>
      have hne : k ≠ id := by
        intro e
        exact hk (e ▸ List.mem_cons_self id rest)
      have hrest : k ∉ rest := fun hr => hk (List.mem_cons_of_mem id hr)
      by_cases hs : id ∈ seen
      · simpa [procTokens, hs] using ih seen m hrest
      · have h1 := updTok_get_ne F N mode m id k hne
        have h2 := ih (id :: seen) (updTok F N mode m id) hrest
        simp only [procTokens, hs, if_neg]
        exact ⟨h2.1.trans h1.1, h2.2.trans h1.2⟩

theorem procTokens_get_seen {V : Type} [Zero V] (F : Nat → Nat → V)
    (N : Nat) (mode : Int) (ids seen : List Nat)
    (m : List (Nat × Nat) × List (Nat × V)) (k : Nat) (hk : k ∈ seen) :
    alGet (procTokens F N mode ids seen m).1 k = alGet m.1 k ∧
    alGet (procTokens F N mode ids seen m).2 k = alGet m.2 k := by
  induction ids generalizing seen m with
  | nil => simp [procTokens]
  | cons id rest ih =>
      by_cases hs : id ∈ seen
      · simpa [procTokens, hs] using ih seen m hk
      · have hne : k ≠ id := by
          intro e
          exact hs (e ▸ hk)
        have h1 := updTok_get_ne F N mode m id k hne
        have h2 := ih (id :: seen) (updTok F N mode m id)
          (List.mem_cons_of_mem id hk)
        simp only [procTokens, hs, if_neg]
        exact ⟨h2.1.trans h1.1, h2.2.trans h1.2⟩

theorem procTokens_get_mem {V : Type} [Zero V] (F : Nat → Nat → V)
    (N : Nat) (mode : Int) (ids seen : List Nat)
    (m : List (Nat × Nat) × List (Nat × V)) (k : Nat) (hk : k ∈ ids)
    (hs : k ∉ seen) :
    alGet (procTokens F N mode ids seen m).1 k =
      (if dfStep mode ((alGet m.1 k).getD 0) = 0 then none
       else some (dfStep mode ((alGet m.1 k).getD 0))) ∧
    alGet (procTokens F N mode ids seen m).2 k =
      (if dfStep mode ((alGet m.1 k).getD 0) = 0 then none
       else some (if 0 < N then F N (dfStep mode ((alGet m.1 k).getD 0))
                  else 0)) := by
  induction ids generalizing seen m with
  | nil => exact absurd hk (List.not_mem_nil k)
  | cons id rest ih =>
      by_cases hid : id = k
      · subst hid
        have h1 := procTokens_get_seen F N mode rest (id :: seen)
          (updTok F N mode m id) id (List.mem_cons_self id seen)
        have h2 := updTok_get_self F N mode m id
        simp only [procTokens, hs, if_neg]
        exact ⟨h1.1.trans h2.1, h1.2.trans h2.2⟩
      · have hkr : k ∈ rest := by
          rcases List.mem_cons.mp hk with h | h
          · exact absurd h.symm hid
          · exact h
        by_cases hsi : id ∈ seen
        · simpa [procTokens, hsi] using ih seen m hkr hs
        · have hne : k ≠ id := fun e => hid e.symm
          have hpre := updTok_get_ne F N mode m id k hne
          have h2 := ih (id :: seen) (updTok F N mode m id) hkr
            (by
              intro hmem
              rcases List.mem_cons.mp hmem with h | h
              · exact hne h
              · exact hs h)
          rw [hpre.1] at h2
          simpa [procTokens, hsi] using h2

theorem procTokens_getD {V : Type} [Zero V] (F : Nat → Nat → V) (N : Nat)
    (mode : Int) (ids : List Nat)
    (m : List (Nat × Nat) × List (Nat × V)) (k : Nat) :
    ((alGet (procTokens F N mode ids [] m).1 k).getD 0) =
      (if k ∈ ids then dfStep mode ((alGet m.1 k).getD 0)
       else (alGet m.1 k).getD 0) := by
  by_cases hk : k ∈ ids
  · have h := (procTokens_get_mem F N mode ids [] m k hk
      (List.not_mem_nil k)).1
    rw [h]
    by_cases hz : dfStep mode ((alGet m.1 k).getD 0) = 0
    · simp [hz, hk]
    · simp [hz, hk]
  · have h := (procTokens_get_notmem F N mode ids [] m k hk).1
    rw [h]
    simp [hk]

/-- Extensional equality of IDF stores (Go map equality is extensional). -/
def storeEquiv {V : Type} (S T : IDFStore V) : Prop :=
  (∀ k, alGet S.DF k = alGet T.DF k) ∧
  (∀ k, alGet S.IDF k = alGet T.IDF k) ∧
  (∀ k, alGet S.NgramDF k = alGet T.NgramDF k) ∧
  (∀ k, alGet S.NgramIDF k = alGet T.NgramIDF k) ∧
  S.N = T.N ∧ S.TotalTokens = T.TotalTokens

/-- Freshness of one key of a (DF, IDF) map pair: the cached IDF entry is
exactly what the store's recompute step would produce at document count `N`
for the current frequency, and zero-frequency keys are pruned. -/
def pairFresh {V : Type} [Zero V] (F : Nat → Nat → V) (N : Nat)
    (m : List (Nat × Nat) × List (Nat × V)) (k : Nat) : Prop :=
  match alGet m.1 k with
  | none => alGet m.2 k = none
  | some df => 0 < df ∧ alGet m.2 k = some (if 0 < N then F N df else 0)

theorem procTokens_add_remove {V : Type} [Zero V] (F : Nat → Nat → V)
    (N : Nat) (ids : List Nat) (m : List (Nat × Nat) × List (Nat × V))
    (hfresh : ∀ k ∈ ids, pairFresh F N m k) (k : Nat) :
    alGet (procTokens F N (-1) ids []
      (procTokens F (N + 1) 1 ids [] m)).1 k = alGet m.1 k ∧
    alGet (procTokens F N (-1) ids []
      (procTokens F (N + 1) 1 ids [] m)).2 k = alGet m.2 k := by
  by_cases hk : k ∈ ids
  · have hadd := procTokens_get_mem F (N + 1) 1 ids [] m k hk
      (List.not_mem_nil k)
    have hs1 : dfStep 1 ((alGet m.1 k).getD 0) = (alGet m.1 k).getD 0 + 1 := by
      simp [dfStep]
    rw [hs1] at hadd
    simp only [Nat.succ_ne_zero, if_neg, ite_false] at hadd
    have hrem := procTokens_get_mem F N (-1) ids []
      (procTokens F (N + 1) 1 ids [] m) k hk (List.not_mem_nil k)
    rw [hadd.1] at hrem
    have hs2 : dfStep (-1) ((some ((alGet m.1 k).getD 0 + 1)).getD 0) =
        (alGet m.1 k).getD 0 := by
      simp [dfStep]
    rw [hs2] at hrem
    rcases hrem with ⟨hrem1, hrem2⟩
    have hf := hfresh k hk
    by_cases hz : (alGet m.1 k).getD 0 = 0
    · have hnone : alGet m.1 k = none := by
        cases hg : alGet m.1 k with
        | none => rfl
        | some v =>
            have : 0 < v := by
              have := hf
              rw [pairFresh, hg] at this
              exact this.1
            rw [hg] at hz
            simp at hz
            omega
      have hidf : alGet m.2 k = none := by
        have := hf
        rw [pairFresh, hnone] at this
        exact this
      constructor
      · rw [hrem1, hnone]
        simp [hz]
      · rw [hrem2, hidf]
        simp [hz]
    · have hsome : alGet m.1 k = some ((alGet m.1 k).getD 0) := by
        cases hg : alGet m.1 k with
        | none => rw [hg] at hz; simp at hz
        | some v => simp [hg]
      have hidf : alGet m.2 k =
          some (if 0 < N then F N ((alGet m.1 k).getD 0) else 0) := by
        have := hf
        rw [pairFresh, hsome] at this
        exact this.2
      constructor
      · rw [hrem1, hsome]
        simp [hz]
      · rw [hrem2, hidf]
        simp [hz]
  · have hadd := procTokens_get_notmem F (N + 1) 1 ids [] m k hk
    have hrem := procTokens_get_notmem F N (-1) ids []
      (procTokens F (N + 1) 1 ids [] m) k hk
    exact ⟨hrem.1.trans hadd.1, hrem.2.trans hadd.2⟩

/-- Claim C3 (amended): immediately after `addDocument(d); removeDocument(d)`
the IDF store equals its prior state (modulo the dirty flag, which lives
outside the store), provided the prior store's total token count is
non-negative and its cached IDF entries at the document's token keys and
n-gram keys are fresh (equal to the recompute formula at the prior `(N, DF)`,
zero-frequency keys pruned).  Without the freshness proviso the pair of
operations refreshes stale entries, see the counterexample. -/
theorem c3_add_remove_roundtrip {V : Type} [Zero V]
    (tokenize : String → List Nat) (F : Nat → Nat → V)
    (ngHash : List Nat → Nat) (d : Doc) (S : IDFStore V)
    (hTT : 0 ≤ S.TotalTokens)
    (hTok : ∀ k ∈ tokenize d.body, pairFresh F S.N (S.DF, S.IDF) k)
    (hNg : ∀ k ∈ ngramHashes ngHash (tokenize d.body) 2 ++
      ngramHashes ngHash (tokenize d.body) 3,
      pairFresh F S.N (S.NgramDF, S.NgramIDF) k) :
    storeEquiv
      (removeDocumentFromIDF tokenize F ngHash d
        (addDocumentToIDF tokenize F ngHash d S)) S := by
  have hNpos : (0 : Int) < 1 := by decide
  have hNneg : (-1 : Int) < 0 := by decide
  have hNneg2 : ¬ (0 : Int) < -1 := by decide
  simp only [removeDocumentFromIDF, addDocumentToIDF, updateDocumentInIDF,
    hNpos, hNneg, hNneg2, if_true, if_false, ite_true, ite_false,
    Nat.succ_sub_one, Nat.zero_lt_succ]
  have hTTle : (d.tokenCount : Int) ≤ S.TotalTokens + (d.tokenCount : Int) := by
    omega
  refine ⟨?_, ?_, ?_, ?_, ?_, ?_⟩
  · intro k
    exact (procTokens_add_remove F S.N (tokenize d.body)
      (S.DF, S.IDF) hTok k).1
  · intro k
    exact (procTokens_add_remove F S.N (tokenize d.body)
      (S.DF, S.IDF) hTok k).2
  · intro k
    exact (procTokens_add_remove F S.N
      (ngramHashes ngHash (tokenize d.body) 2 ++
        ngramHashes ngHash (tokenize d.body) 3)
      (S.NgramDF, S.NgramIDF) hNg k).1
  · intro k
    exact (procTokens_add_remove F S.N
      (ngramHashes ngHash (tokenize d.body) 2 ++
        ngramHashes ngHash (tokenize d.body) 3)
      (S.NgramDF, S.NgramIDF) hNg k).2
  · rfl
  · simp [hTTle]

/-- A small concrete tokenizer used for concrete executions: "a" ↦ [1],
"b" ↦ [2], "c" ↦ [1]. -/
def tokTwo : String → List Nat := fun s =>
  if s = "a" then [1] else if s = "b" then [2]
  else if s = "c" then [1] else []

/-- A concrete n-gram fingerprint for concrete executions. -/
def hashSum : List Nat → Nat := fun g => g.sum

def docA : Doc := ⟨"a", 1, "ha"⟩

def docB : Doc := ⟨"b", 1, "hb"⟩

def docC : Doc := ⟨"c", 1, "hc"⟩

/-- The store reached from empty by `addDocument(docA); addDocument(docB)`
with the legacy IDF formula: the cached weight of token 1 was computed when
`N` was still 1. -/
noncomputable def twoDocState : IDFStore ℝ :=
  addDocumentToIDF tokTwo (idfValue false) hashSum docB
    (addDocumentToIDF tokTwo (idfValue false) hashSum docA
      (initEmptyIDFStore ℝ))

theorem twoDocState_eval :
    twoDocState =
      ⟨[(1, 1), (2, 1)], 2, [(1, idfValue false 1 1), (2, idfValue false 2 1)],
        [], [], 2⟩ := by
  simp [twoDocState, addDocumentToIDF, updateDocumentInIDF, procTokens,
    updTok, alGet, alSet, alErase, ngramHashes, listNgrams,
    initEmptyIDFStore, tokTwo, dfStep, docA, docB]

theorem idfValue_legacy_one_two_ne : idfValue false 1 1 ≠ idfValue false 2 1 := by
  have hlt : idfValue false 1 1 < idfValue false 2 1 := by
    unfold idfValue
    simp only [Bool.false_eq_true, if_false, ite_false]
    push_cast
    apply Real.log_lt_log
    · norm_num
    · norm_num
  exact ne_of_lt hlt

/-- Claim C4 is false as stated: in the store reached from empty by adding a
document with token 1 and then a document with token 2, `DF[1] = 1 > 0` and
`N = 2`, but `IDF[1]` still caches the formula value computed at `N = 1`
(`log1p(1/2)`), not the configured formula at the current `(N, DF[1])`
(`log1p(2/2)`): untouched keys are not recomputed when `N` changes. -/
theorem c4_counterexample :
    alGet twoDocState.DF 1 = some 1 ∧ twoDocState.N = 2 ∧
    alGet twoDocState.IDF 1 ≠
      some (if 0 < twoDocState.N then idfValue false twoDocState.N 1 else 0) := by
  rw [twoDocState_eval]
  refine ⟨by simp [alGet], rfl, ?_⟩
  simp only [alGet, if_pos, Nat.zero_lt_succ, ite_true]
  intro h
  have h2 : idfValue false 1 1 = idfValue false 2 1 := by
    simpa using h
  exact idfValue_legacy_one_two_ne h2

/-- Claim C4 (amended): after any single `updateDocumentInIDF` operation,
every token key of that operation's document still present in `DF` has a
cached `IDF` equal to the configured formula at the resulting `(N, DF[k])`
(zero when the resulting `N` is zero), while every key not belonging to the
document keeps its previous `DF` and `IDF` entries unchanged — the recompute
is lazy, touching exactly the document's keys. -/
theorem c4_idf_recompute_touched {V : Type} [Zero V]
    (tokenize : String → List Nat) (F : Nat → Nat → V)
    (ngHash : List Nat → Nat) (d : Doc) (mode : Int) (S : IDFStore V) :
    (∀ k ∈ tokenize d.body, ∀ df,
        alGet (updateDocumentInIDF tokenize F ngHash d mode S).DF k = some df →
        alGet (updateDocumentInIDF tokenize F ngHash d mode S).IDF k =
          some (if 0 < (updateDocumentInIDF tokenize F ngHash d mode S).N
                then F (updateDocumentInIDF tokenize F ngHash d mode S).N df
                else 0)) ∧
    (∀ k, k ∉ tokenize d.body →
        alGet (updateDocumentInIDF tokenize F ngHash d mode S).DF k =
          alGet S.DF k ∧
        alGet (updateDocumentInIDF tokenize F ngHash d mode S).IDF k =
          alGet S.IDF k) := by
  constructor
  · intro k hk df hdf
    simp only [updateDocumentInIDF] at hdf ⊢
    have h := procTokens_get_mem F
      (if 0 < mode then S.N + 1
       else if mode < 0 then (if 0 < S.N then S.N - 1 else S.N) else S.N)
      mode (tokenize d.body) [] (S.DF, S.IDF) k hk (List.not_mem_nil k)
    rw [h.1] at hdf
    rw [h.2]
    by_cases hz : dfStep mode ((alGet S.DF k).getD 0) = 0
    · rw [if_pos hz] at hdf
      exact absurd hdf (by simp)
    · rw [if_neg hz] at hdf
      have hdf2 : df = dfStep mode ((alGet S.DF k).getD 0) := by
        injection hdf with h2
        exact h2.symm
      rw [if_neg hz, hdf2]
  · intro k hk
    simp only [updateDocumentInIDF]
    exact procTokens_get_notmem F
      (if 0 < mode then S.N + 1
       else if mode < 0 then (if 0 < S.N then S.N - 1 else S.N) else S.N)
      mode (tokenize d.body) [] (S.DF, S.IDF) k hk

theorem c4_witness :
    (1 ∈ tokTwo docA.body ∧
      alGet (updateDocumentInIDF tokTwo (idfValue false) hashSum docA 1
        (initEmptyIDFStore ℝ)).DF 1 = some 1) ∧
    alGet (updateDocumentInIDF tokTwo (idfValue false) hashSum docA 1
        (initEmptyIDFStore ℝ)).IDF 1 =
      some (if 0 < (updateDocumentInIDF tokTwo (idfValue false) hashSum docA 1
        (initEmptyIDFStore ℝ)).N
            then idfValue false (updateDocumentInIDF tokTwo (idfValue false)
              hashSum docA 1 (initEmptyIDFStore ℝ)).N 1
            else 0) := by
  have hmem : 1 ∈ tokTwo docA.body := by simp [tokTwo, docA]
  have hdf : alGet (updateDocumentInIDF tokTwo (idfValue false) hashSum docA 1
      (initEmptyIDFStore ℝ)).DF 1 = some 1 := by
    simp [updateDocumentInIDF, procTokens, updTok, alGet, alSet, alErase,
      ngramHashes, listNgrams, initEmptyIDFStore, tokTwo, dfStep, docA]
  exact ⟨⟨hmem, hdf⟩,
    (c4_idf_recompute_touched tokTwo (idfValue false) hashSum docA 1
      (initEmptyIDFStore ℝ)).1 1 hmem 1 hdf⟩

/-- Claim C3 is false as stated: starting from the reachable two-document
store whose cached `IDF[1]` is stale (computed at `N = 1`), adding and then
immediately removing a third document containing token 1 refreshes `IDF[1]`
to the formula value at `N = 2`, so the store does not return to its prior
state. -/
theorem c3_counterexample :
    ¬ storeEquiv
        (removeDocumentFromIDF tokTwo (idfValue false) hashSum docC
          (addDocumentToIDF tokTwo (idfValue false) hashSum docC twoDocState))
        twoDocState := by
  intro h
  have h2 := h.2.1 1
  rw [twoDocState_eval] at h2
  have hL : alGet (removeDocumentFromIDF tokTwo (idfValue false) hashSum docC
      (addDocumentToIDF tokTwo (idfValue false) hashSum docC
        (⟨[(1, 1), (2, 1)], 2,
          [(1, idfValue false 1 1), (2, idfValue false 2 1)], [], [], 2⟩ :
          IDFStore ℝ))).IDF 1 = some (idfValue false 2 1) := by
    simp [removeDocumentFromIDF, addDocumentToIDF, updateDocumentInIDF,
      procTokens, updTok, alGet, alSet, alErase, ngramHashes, listNgrams,
      tokTwo, dfStep, docC]
  rw [hL] at h2
  have hR : alGet (⟨[(1, 1), (2, 1)], 2,
      [(1, idfValue false 1 1), (2, idfValue false 2 1)], [], [], 2⟩ :
      IDFStore ℝ).IDF 1 = some (idfValue false 1 1) := by
    simp [alGet]
  rw [hR] at h2
  have h3 : idfValue false 1 1 = idfValue false 2 1 := by
    injection h2 with h3
    exact h3.symm
  exact idfValue_legacy_one_two_ne h3

theorem c3_witness :
    (0 ≤ (initEmptyIDFStore ℝ).TotalTokens) ∧
    storeEquiv
      (removeDocumentFromIDF tokTwo (idfValue false) hashSum docA
        (addDocumentToIDF tokTwo (idfValue false) hashSum docA
          (initEmptyIDFStore ℝ)))
      (initEmptyIDFStore ℝ) := by
  refine ⟨by simp [initEmptyIDFStore], ?_⟩
  exact c3_add_remove_roundtrip tokTwo (idfValue false) hashSum docA
    (initEmptyIDFStore ℝ)
    (by simp [initEmptyIDFStore])
    (by
      intro k hk
      simp [initEmptyIDFStore, pairFresh, alGet])
    (by
      intro k hk
      simp [initEmptyIDFStore, pairFresh, alGet])

/-- A store operation: add or remove a document. -/
inductive StoreOp where
  | addOp : Doc → StoreOp
  | removeOp : Doc → StoreOp
deriving DecidableEq

/-- Run a sequence of store operations against an IDF store. -/
def runOps {V : Type} [Zero V] (tokenize : String → List Nat)
    (F : Nat → Nat → V) (ngHash : List Nat → Nat) :
    List StoreOp → IDFStore V → IDFStore V
  | [], S => S
  | StoreOp.addOp d :: rest, S =>
      runOps tokenize F ngHash rest (addDocumentToIDF tokenize F ngHash d S)
  | StoreOp.removeOp d :: rest, S =>
      runOps tokenize F ngHash rest
        (removeDocumentFromIDF tokenize F ngHash d S)

/-- A trace is matched (relative to the multiset of currently stored
documents) when every removal removes a document that is currently present. -/
def matchedFrom : List StoreOp → Multiset Doc → Prop
  | [], _ => True
  | StoreOp.addOp d :: rest, ms => matchedFrom rest (d ::ₘ ms)
  | StoreOp.removeOp d :: rest, ms => d ∈ ms ∧ matchedFrom rest (ms.erase d)

/-- The document-frequency invariant: `N` counts the stored documents and
each `DF` frequency counts the stored documents containing that token. -/
def dfInvariant {V : Type} (tokenize : String → List Nat) (S : IDFStore V)
    (ms : Multiset Doc) : Prop :=
  S.N = Multiset.card ms ∧
  ∀ k, (alGet S.DF k).getD 0 =
    Multiset.countP (fun d => k ∈ tokenize d.body) ms

theorem dfInvariant_add {V : Type} [Zero V] (tokenize : String → List Nat)
    (F : Nat → Nat → V) (ngHash : List Nat → Nat) (d : Doc)
    (S : IDFStore V) (ms : Multiset Doc)
    (h : dfInvariant tokenize S ms) :
    dfInvariant tokenize (addDocumentToIDF tokenize F ngHash d S)
      (d ::ₘ ms) := by
  constructor
  · simp only [addDocumentToIDF, updateDocumentInIDF]
    simp [h.1, Multiset.card_cons]
  · intro k
    simp only [addDocumentToIDF, updateDocumentInIDF]
    rw [procTokens_getD]
    rw [Multiset.countP_cons]
    by_cases hk : k ∈ tokenize d.body
    · simp [hk, dfStep, h.2 k]
    · simp [hk, h.2 k]

theorem dfInvariant_remove {V : Type} [Zero V] (tokenize : String → List Nat)
    (F : Nat → Nat → V) (ngHash : List Nat → Nat) (d : Doc)
    (S : IDFStore V) (ms : Multiset Doc)
    (h : dfInvariant tokenize S ms) (hmem : d ∈ ms) :
    dfInvariant tokenize (removeDocumentFromIDF tokenize F ngHash d S)
      (ms.erase d) := by
  have hcard : 0 < Multiset.card ms := by
    rcases Multiset.exists_cons_of_mem hmem with ⟨t, rfl⟩
    simp
  have hNpos : 0 < S.N := h.1 ▸ hcard
  have hmseq : d ::ₘ ms.erase d = ms := Multiset.cons_erase hmem
  constructor
  · simp only [removeDocumentFromIDF, updateDocumentInIDF]
    have : S.N - 1 = Multiset.card (ms.erase d) := by
      rw [h.1, Multiset.card_erase_of_mem hmem]
      rfl
    simp [hNpos, this]
  · intro k
    simp only [removeDocumentFromIDF, updateDocumentInIDF]
    rw [procTokens_getD]
    have hcount : Multiset.countP (fun t => k ∈ tokenize t.body) ms =
        Multiset.countP (fun t => k ∈ tokenize t.body) (ms.erase d) +
          (if k ∈ tokenize d.body then 1 else 0) := by
      conv =>
        lhs
        rw [← hmseq]
      rw [Multiset.countP_cons]
    by_cases hk : k ∈ tokenize d.body
    · have hpos : 0 < (alGet S.DF k).getD 0 := by
        rw [h.2 k, hcount]
        simp [hk]
      simp only [hk, if_pos, ite_true, dfStep]
      rw [if_neg (by decide), if_pos (by decide), if_pos hpos]
      rw [h.2 k, hcount]
      simp [hk]
    · simp only [hk, if_neg, ite_false]
      rw [h.2 k, hcount]
      simp [hk]

theorem runOps_invariant {V : Type} [Zero V] (tokenize : String → List Nat)
    (F : Nat → Nat → V) (ngHash : List Nat → Nat) (ops : List StoreOp) :
    ∀ (S : IDFStore V) (ms : Multiset Doc), dfInvariant tokenize S ms →
      matchedFrom ops ms →
      ∃ ms', dfInvariant tokenize (runOps tokenize F ngHash ops S) ms' := by
  induction ops with
  | nil =>
      intro S ms hinv _
      exact ⟨ms, hinv⟩
  | cons op rest ih =>
      intro S ms hinv hmatch
      cases op with
      | addOp d =>
          exact ih (addDocumentToIDF tokenize F ngHash d S) (d ::ₘ ms)
            (dfInvariant_add tokenize F ngHash d S ms hinv)
            hmatch
      | removeOp d =>
          exact ih (removeDocumentFromIDF tokenize F ngHash d S) (ms.erase d)
            (dfInvariant_remove tokenize F ngHash d S ms hinv hmatch.1)
            hmatch.2

/-- Claim C8 (amended): in every IDF store state reachable from the empty
store by a matched sequence of addDocument and removeDocument operations
(each removal removes a document currently stored), `DF[k] ≤ N` holds for
every token key `k`.  For sequences that remove documents never added the
bound fails, see the counterexample. -/
theorem c8_df_le_n {V : Type} [Zero V] (tokenize : String → List Nat)
    (F : Nat → Nat → V) (ngHash : List Nat → Nat) (ops : List StoreOp)
    (h : matchedFrom ops (0 : Multiset Doc)) :
    ∀ k v, alGet (runOps tokenize F ngHash ops
        (initEmptyIDFStore V)).DF k = some v →
      v ≤ (runOps tokenize F ngHash ops (initEmptyIDFStore V)).N := by
  have hinv0 : dfInvariant tokenize (initEmptyIDFStore V)
      (0 : Multiset Doc) := by
    constructor
    · simp [initEmptyIDFStore]
    · intro k
      simp [initEmptyIDFStore, alGet]
  obtain ⟨ms', hinv⟩ := runOps_invariant tokenize F ngHash ops
    (initEmptyIDFStore V) (0 : Multiset Doc) hinv0 h
  intro k v hget
  have h1 := hinv.2 k
  rw [hget] at h1
  simp only [Option.getD_some] at h1
  rw [h1, hinv.1]
  exact Multiset.countP_le_card _ ms'

/-- The state reached from empty by `addDocument(docA)` followed by
`removeDocument(docB)` where docB was never added. -/
noncomputable def unbalancedState : IDFStore ℝ :=
  runOps tokTwo (idfValue false) hashSum
    [StoreOp.addOp docA, StoreOp.removeOp docB] (initEmptyIDFStore ℝ)

theorem unbalancedState_eval :
    unbalancedState = ⟨[(1, 1)], 0, [(1, idfValue false 1 1)], [], [], 0⟩ := by
  simp [unbalancedState, runOps, addDocumentToIDF, removeDocumentFromIDF,
    updateDocumentInIDF, procTokens, updTok, alGet, alSet, alErase,
    ngramHashes, listNgrams, initEmptyIDFStore, tokTwo, dfStep, docA, docB]

/-- Claim C8 is false as stated (over sequences that may remove documents
never added): after `addDocument(docA); removeDocument(docB)` from the empty
store, `N` was decremented back to 0 but `DF[1] = 1` survives, violating
`DF[k] ≤ N`. -/
theorem c8_counterexample :
    alGet unbalancedState.DF 1 = some 1 ∧ unbalancedState.N = 0 ∧
    ¬ (1 ≤ unbalancedState.N) := by
  rw [unbalancedState_eval]
  refine ⟨by simp [alGet], rfl, by decide⟩

theorem c8_witness :
    matchedFrom [StoreOp.addOp docA, StoreOp.removeOp docA]
      (0 : Multiset Doc) ∧
    (∀ k v, alGet (runOps tokTwo (idfValue false) hashSum
        [StoreOp.addOp docA, StoreOp.removeOp docA]
        (initEmptyIDFStore ℝ)).DF k = some v →
      v ≤ (runOps tokTwo (idfValue false) hashSum
        [StoreOp.addOp docA, StoreOp.removeOp docA]
        (initEmptyIDFStore ℝ)).N) := by
  have hm : matchedFrom [StoreOp.addOp docA, StoreOp.removeOp docA]
      (0 : Multiset Doc) := by
    simp [matchedFrom]
  exact ⟨hm, c8_df_le_n tokTwo (idfValue false) hashSum
    [StoreOp.addOp docA, StoreOp.removeOp docA] hm⟩

/-! ## Feature extraction (src/src/features.go) -/

/-- The Qdrant payload fields relevant to feature extraction. -/
structure Payload where
  packetID : String
  timestamp : ℝ
  role : String
  body : String
  tokenCount : Int
  hash : String

/-- The 10-component feature vector, in the order used by scoreCandidate. -/
structure Features where
  EmbSim : ℝ
  Recency : ℝ
  RoleScore : ℝ
  BodyLen : ℝ
  PayloadQuality : ℝ
  KeywordOverlap : ℝ
  WeightedOverlap : ℝ
  BM25 : ℝ
  NgramOverlap : ℝ
  WeightedNgram : ℝ

/-- A retrieval candidate: payload, features, final score. -/
structure Candidate where
  payload : Payload
  features : Features
  score : ℝ

/-- uniqueInts (src/src/features.go lines 216-226): first-occurrence
deduplication via a seen set. -/
def uniqueIntsAux : List Nat → List Nat → List Nat
  | [], _ => []
  | x :: rest, seen =>
      if x ∈ seen then uniqueIntsAux rest seen
      else x :: uniqueIntsAux rest (x :: seen)

def uniqueInts (ids : List Nat) : List Nat := uniqueIntsAux ids []

/-- keywordOverlapIDs (src/src/features.go lines 61-91): the fraction of the
query's token occurrences (the raw, non-deduplicated token sequence of the
query) whose id appears in the document's token set; 0 when either token
sequence is empty. -/
noncomputable def keywordOverlapIDs (tokenize : String → List Nat)
    (query docBody : String) : ℝ :=
  let qIDs := tokenize query
  if qIDs = [] then 0
  else
    let docIDs := tokenize docBody
    if docIDs = [] then 0
    else ((qIDs.countP (fun id => decide (id ∈ docIDs)) : ℝ)) /
      ((qIDs.length : ℝ))

/-- weightedKeywordOverlapIDs (src/src/features.go lines 94-125): IDF-weighted
variant; `wIDF` is the IDF map lookup, missing entries fall back to
`fallback`; returns 0 when the weight total is zero. -/
noncomputable def weightedKeywordOverlapIDs (tokenize : String → List Nat)
    (wIDF : Nat → Option ℝ) (query docBody : String) (fallback : ℝ) : ℝ :=
  let qIDs := tokenize query
  if qIDs = [] then 0
  else
    let docIDs := tokenize docBody
    let sumTotal := (qIDs.map (fun id => (wIDF id).getD fallback)).sum
    let sumFound := (qIDs.map (fun id =>
      if id ∈ docIDs then (wIDF id).getD fallback else 0)).sum
    if sumTotal = 0 then 0 else sumFound / sumTotal

/-- ngramOverlap (src/src/features.go lines 167-184): fraction of the query's
n-gram occurrences present among the document's n-grams. -/
noncomputable def ngramOverlap (qIDs docIDs : List Nat) (n : Nat) : ℝ :=
  let qN := listNgrams qIDs n
  if qN = [] then 0
  else
    let dN := listNgrams docIDs n
    ((qN.countP (fun g => decide (g ∈ dN)) : ℝ)) / ((qN.length : ℝ))

/-- weightedNgramOverlap (src/src/features.go lines 187-213): IDF-weighted
n-gram variant; `wNg` is the NgramIDF map lookup. -/
noncomputable def weightedNgramOverlap (wNg : List Nat → Option ℝ)
    (qIDs docIDs : List Nat) (n : Nat) (fallback : ℝ) : ℝ :=
  let qN := listNgrams qIDs n
  if qN = [] then 0
  else
    let dN := listNgrams docIDs n
    let sumTotal := (qN.map (fun g => (wNg g).getD fallback)).sum
    let sumFound := (qN.map (fun g =>
      if g ∈ dN then (wNg g).getD fallback else 0)).sum
    if sumTotal = 0 then 0 else sumFound / sumTotal

/-- bm25Score (src/src/features.go lines 233-267): Okapi BM25 with the
BM25-style IDF computed inline from the store's `(N, DF)`; terms absent from
the document contribute 0; `avgdl ≤ 0` is reset to 1. -/
noncomputable def bm25Score (k1 b : ℝ) (qIDs docIDs : List Nat)
    (docLen : Int) (DF : List (Nat × Nat)) (N : Nat) (avgdl : ℝ) : ℝ :=
  if qIDs = [] ∨ docIDs = [] then 0
  else
    let avgdl2 := if avgdl ≤ 0 then 1 else avgdl
    (qIDs.map (fun q =>
      let f : ℝ := (docIDs.count q : ℝ)
      if f = 0 then 0
      else
        let df : ℝ := (((alGet DF q).getD 0 : Nat) : ℝ)
        let idf := Real.log (1 + (((N : ℝ) - df + 0.5) / (df + 0.5)))
        idf * (f * (k1 + 1)) / (f + k1 * (1 - b + b * ((docLen : ℝ) / avgdl2))))).sum

/-- normalizeBM25 (src/src/features.go lines 270-274): `1 - exp(-score)`. -/
noncomputable def normalizeBM25 (score : ℝ) : ℝ := 1 - Real.exp (-score)

/-- updateFeaturesForCandidate (src/src/features.go lines 278-340): computes
the five rerank-time features.  The query ids are deduplicated and truncated
to the adaptive query limit for BM25 and the n-gram features, while the two
keyword-overlap functions re-derive the raw query token sequence themselves;
on empty query or document token sequences the candidate is returned
unchanged. -/
noncomputable def updateFeaturesForCandidate (tokenize : String → List Nat)
    (wIDF : Nat → Option ℝ) (wNg : List Nat → Option ℝ)
    (maxQueryTokens : Nat) (k1 b : ℝ) (DF : List (Nat × Nat)) (N : Nat)
    (TotalTokens : Int) (query : String) (cand : Candidate) : Candidate :=
  let qIDs1 := uniqueInts (tokenize query)
  if qIDs1 = [] then cand
  else
    let docIDs := tokenize cand.payload.body
    if docIDs = [] then cand
    else
      let qIDs :=
        if maxQueryTokens < qIDs1.length then
          (if 2 * maxQueryTokens < qIDs1.length then
            qIDs1.take (qIDs1.length / 2)
          else qIDs1.take maxQueryTokens)
        else qIDs1
      let ko := keywordOverlapIDs tokenize query cand.payload.body
      let wko := weightedKeywordOverlapIDs tokenize wIDF query
        cand.payload.body 1
      let avgdl : ℝ := if 0 < N then (TotalTokens : ℝ) / (N : ℝ) else 1
      let bm := bm25Score k1 b qIDs docIDs cand.payload.tokenCount DF N avgdl
      let ng := ngramOverlap qIDs docIDs 2
      let wng := weightedNgramOverlap wNg qIDs docIDs 2 1
      ⟨cand.payload,
        ⟨cand.features.EmbSim, cand.features.Recency, cand.features.RoleScore,
          cand.features.BodyLen, cand.features.PayloadQuality,
          ko, wko, normalizeBM25 bm, ng, wng⟩,
        cand.score⟩

theorem countRatio_bounds (num den : Nat) (hden : den ≠ 0)
    (hle : num ≤ den) : 0 ≤ ((num : ℝ)) / ((den : ℝ)) ∧
    ((num : ℝ)) / ((den : ℝ)) ≤ 1 := by
  have hpos : 0 < ((den : ℝ)) := by
    exact_mod_cast Nat.pos_of_ne_zero hden
  constructor
  · exact div_nonneg (Nat.cast_nonneg num) (le_of_lt hpos)
  · rw [div_le_one hpos]
    exact_mod_cast hle

theorem keywordOverlapIDs_bounds (tokenize : String → List Nat)
    (query docBody : String) :
    0 ≤ keywordOverlapIDs tokenize query docBody ∧
    keywordOverlapIDs tokenize query docBody ≤ 1 := by
  simp only [keywordOverlapIDs]
  split_ifs with h1 h2
  · norm_num
  · norm_num
  · exact countRatio_bounds _ _
      (by simpa [List.length_eq_zero] using h1)
      (List.countP_le_length _)

theorem ngramOverlap_bounds (qIDs docIDs : List Nat) (n : Nat) :
    0 ≤ ngramOverlap qIDs docIDs n ∧ ngramOverlap qIDs docIDs n ≤ 1 := by
  simp only [ngramOverlap]
  split_ifs with h1
  · norm_num
  · exact countRatio_bounds _ _
      (by simpa [List.length_eq_zero] using h1)
      (List.countP_le_length _)

theorem foundRatio_bounds {α : Type} (L : List α) (wt : α → ℝ)
    (p : α → Prop) [DecidablePred p] (hw : ∀ x ∈ L, 0 ≤ wt x) :
    0 ≤ (if (L.map wt).sum = 0 then (0 : ℝ)
         else (L.map (fun x => if p x then wt x else 0)).sum /
           (L.map wt).sum) ∧
    (if (L.map wt).sum = 0 then (0 : ℝ)
     else (L.map (fun x => if p x then wt x else 0)).sum /
       (L.map wt).sum) ≤ 1 := by
  have htot : 0 ≤ (L.map wt).sum := by
    apply List.sum_nonneg
    intro x hx
    obtain ⟨y, hy, rfl⟩ := List.mem_map.mp hx
    exact hw y hy
  have hfound0 : 0 ≤ (L.map (fun x => if p x then wt x else 0)).sum := by
    apply List.sum_nonneg
    intro x hx
    obtain ⟨y, hy, rfl⟩ := List.mem_map.mp hx
    by_cases hp : p y
    · simpa [hp] using hw y hy
    · simp [hp]
  have hfound_le : (L.map (fun x => if p x then wt x else 0)).sum ≤
      (L.map wt).sum := by
    apply List.sum_le_sum
    intro y hy
    by_cases hp : p y
    · simp [hp]
    · simpa [hp] using hw y hy
  split_ifs with hz
  · norm_num
  · have hpos : 0 < (L.map wt).sum := lt_of_le_of_ne htot (Ne.symm hz)
    exact ⟨div_nonneg hfound0 htot, (div_le_one hpos).mpr hfound_le⟩

theorem weightedKeywordOverlapIDs_bounds (tokenize : String → List Nat)
    (wIDF : Nat → Option ℝ) (query docBody : String) (fallback : ℝ)
    (hW : ∀ id w, wIDF id = some w → 0 ≤ w) (hfb : 0 ≤ fallback) :
    0 ≤ weightedKeywordOverlapIDs tokenize wIDF query docBody fallback ∧
    weightedKeywordOverlapIDs tokenize wIDF query docBody fallback ≤ 1 := by
  simp only [weightedKeywordOverlapIDs]
  by_cases h1 : tokenize query = []
  · simp [h1]
  · rw [if_neg h1]
    exact foundRatio_bounds (tokenize query)
      (fun id => (wIDF id).getD fallback)
      (fun id => id ∈ tokenize docBody)
      (by
        intro x _
        cases hx : wIDF x with
        | none => simpa [hx] using hfb
        | some w => simpa [hx] using hW x w hx)

theorem weightedNgramOverlap_bounds (wNg : List Nat → Option ℝ)
    (qIDs docIDs : List Nat) (n : Nat) (fallback : ℝ)
    (hW : ∀ g w, wNg g = some w → 0 ≤ w) (hfb : 0 ≤ fallback) :
    0 ≤ weightedNgramOverlap wNg qIDs docIDs n fallback ∧
    weightedNgramOverlap wNg qIDs docIDs n fallback ≤ 1 := by
  simp only [weightedNgramOverlap]
  by_cases h1 : listNgrams qIDs n = []
  · simp [h1]
  · rw [if_neg h1]
    exact foundRatio_bounds (listNgrams qIDs n)
      (fun g => (wNg g).getD fallback)
      (fun g => g ∈ listNgrams docIDs n)
      (by
        intro x _
        cases hx : wNg x with
        | none => simpa [hx] using hfb
        | some w => simpa [hx] using hW x w hx)

theorem bm25TermSum_nonneg (k1 b A : ℝ) (qIDs docIDs : List Nat)
    (docLen : Int) (DF : List (Nat × Nat)) (N : Nat)
    (hk1 : 0 ≤ k1) (hb0 : 0 ≤ b) (hb1 : b ≤ 1) (hdl : 0 ≤ docLen)
    (hA : 0 < A) (hDF : ∀ q v, alGet DF q = some v → v ≤ N) :
    0 ≤ (qIDs.map (fun q =>
      if ((docIDs.count q : ℕ) : ℝ) = 0 then (0 : ℝ)
      else Real.log (1 + (((N : ℝ) - (((alGet DF q).getD 0 : ℕ) : ℝ) + 0.5) /
            ((((alGet DF q).getD 0 : ℕ) : ℝ) + 0.5))) *
          (((docIDs.count q : ℕ) : ℝ) * (k1 + 1)) /
          (((docIDs.count q : ℕ) : ℝ) +
            k1 * (1 - b + b * (((docLen : ℤ) : ℝ) / A))))).sum := by
  apply List.sum_nonneg
  intro x hx
  obtain ⟨q, hq, rfl⟩ := List.mem_map.mp hx
  by_cases hf : ((docIDs.count q : ℕ) : ℝ) = 0
  · simp [hf]
  · rw [if_neg hf]
    have hfpos : 0 < ((docIDs.count q : ℕ) : ℝ) :=
      lt_of_le_of_ne (Nat.cast_nonneg _) (Ne.symm hf)
    have hdf_le : (((alGet DF q).getD 0 : ℕ) : ℝ) ≤ (N : ℝ) := by
      cases hg : alGet DF q with
      | none => simp
      | some v =>
          have := hDF q v hg
          simp only [hg, Option.getD_some]
          exact_mod_cast this
    have hidf : 0 ≤ Real.log (1 +
        (((N : ℝ) - (((alGet DF q).getD 0 : ℕ) : ℝ) + 0.5) /
          ((((alGet DF q).getD 0 : ℕ) : ℝ) + 0.5))) := by
      apply Real.log_nonneg
      have hnum : 0 ≤ (N : ℝ) - (((alGet DF q).getD 0 : ℕ) : ℝ) + 0.5 := by
        linarith
      have hden : 0 < (((alGet DF q).getD 0 : ℕ) : ℝ) + 0.5 := by
        have : (0 : ℝ) ≤ (((alGet DF q).getD 0 : ℕ) : ℝ) :=
          Nat.cast_nonneg _
        linarith
      nlinarith [div_nonneg hnum (le_of_lt hden)]
    have hdl2 : (0 : ℝ) ≤ ((docLen : ℤ) : ℝ) := by exact_mod_cast hdl
    have h3 : 0 ≤ ((docLen : ℤ) : ℝ) / A := div_nonneg hdl2 (le_of_lt hA)
    have hc : 0 ≤ 1 - b + b * (((docLen : ℤ) : ℝ) / A) := by nlinarith
    have hden2 : 0 < ((docIDs.count q : ℕ) : ℝ) +
        k1 * (1 - b + b * (((docLen : ℤ) : ℝ) / A)) := by nlinarith
    apply div_nonneg
    · apply mul_nonneg hidf
      apply mul_nonneg (le_of_lt hfpos)
      linarith
    · exact le_of_lt hden2

theorem bm25Score_nonneg (k1 b : ℝ) (qIDs docIDs : List Nat) (docLen : Int)
    (DF : List (Nat × Nat)) (N : Nat) (avgdl : ℝ)
    (hk1 : 0 ≤ k1) (hb0 : 0 ≤ b) (hb1 : b ≤ 1) (hdl : 0 ≤ docLen)
    (hDF : ∀ q v, alGet DF q = some v → v ≤ N) :
    0 ≤ bm25Score k1 b qIDs docIDs docLen DF N avgdl := by
  simp only [bm25Score]
  split_ifs with h h2
  · exact le_refl 0
  · exact bm25TermSum_nonneg k1 b 1 qIDs docIDs docLen DF N
      hk1 hb0 hb1 hdl one_pos hDF
  · exact bm25TermSum_nonneg k1 b avgdl qIDs docIDs docLen DF N
      hk1 hb0 hb1 hdl (lt_of_not_le h2) hDF

theorem normalizeBM25_bounds (s : ℝ) (hs : 0 ≤ s) :
    0 ≤ normalizeBM25 s ∧ normalizeBM25 s ≤ 1 := by
  unfold normalizeBM25
  constructor
  · have : Real.exp (-s) ≤ 1 := Real.exp_le_one_iff.mpr (by linarith)
    linarith
  · have : 0 < Real.exp (-s) := Real.exp_pos (-s)
    linarith

/-- The rerank-time features are each within the unit interval. -/
def rerankFeaturesBounded (f : Features) : Prop :=
  (0 ≤ f.KeywordOverlap ∧ f.KeywordOverlap ≤ 1) ∧
  (0 ≤ f.WeightedOverlap ∧ f.WeightedOverlap ≤ 1) ∧
  (0 ≤ f.BM25 ∧ f.BM25 ≤ 1) ∧
  (0 ≤ f.NgramOverlap ∧ f.NgramOverlap ≤ 1) ∧
  (0 ≤ f.WeightedNgram ∧ f.WeightedNgram ≤ 1)

/-- Claim C5 (amended): after `updateFeaturesForCandidate` returns, each of
the five rerank-time features (KeywordOverlap, WeightedOverlap, normalized
BM25, NgramOverlap, WeightedNgram) lies in [0, 1], provided the ambient IDF
store is well-formed (all cached IDF and n-gram IDF weights non-negative and
`DF[k] ≤ N`), the BM25 parameters satisfy `0 ≤ k1` and `0 ≤ b ≤ 1`, the
candidate's token count is non-negative, and the candidate enters rerank
with its rerank-time features still within [0, 1] (they are zero-initialized
by the retrieval stage).  In a reachable store with `DF[k] > N` the BM25
feature can be negative, see the counterexample. -/
theorem c5_rerank_features_unit (tokenize : String → List Nat)
    (wIDF : Nat → Option ℝ) (wNg : List Nat → Option ℝ)
    (maxQueryTokens : Nat) (k1 b : ℝ) (DF : List (Nat × Nat)) (N : Nat)
    (TotalTokens : Int) (query : String) (cand : Candidate)
    (hW : ∀ id w, wIDF id = some w → 0 ≤ w)
    (hWn : ∀ g w, wNg g = some w → 0 ≤ w)
    (hDF : ∀ q v, alGet DF q = some v → v ≤ N)
    (hk1 : 0 ≤ k1) (hb0 : 0 ≤ b) (hb1 : b ≤ 1)
    (hdl : 0 ≤ cand.payload.tokenCount)
    (hin : rerankFeaturesBounded cand.features) :
    rerankFeaturesBounded (updateFeaturesForCandidate tokenize wIDF wNg
      maxQueryTokens k1 b DF N TotalTokens query cand).features := by
  simp only [updateFeaturesForCandidate]
  by_cases h1 : uniqueInts (tokenize query) = []
  · rw [if_pos h1]
    exact hin
  · rw [if_neg h1]
    by_cases h2 : tokenize cand.payload.body = []
    · rw [if_pos h2]
      exact hin
    · rw [if_neg h2]
      refine ⟨keywordOverlapIDs_bounds tokenize query cand.payload.body,
        weightedKeywordOverlapIDs_bounds tokenize wIDF query
          cand.payload.body 1 hW (by norm_num), ?_,
        ngramOverlap_bounds _ _ 2,
        weightedNgramOverlap_bounds wNg _ _ 2 1 hWn (by norm_num)⟩
      exact normalizeBM25_bounds _
        (bm25Score_nonneg k1 b _ _ cand.payload.tokenCount DF N _
          hk1 hb0 hb1 hdl hDF)

/-- A concrete candidate whose body tokenizes to [1]. -/
def candA : Candidate :=
  ⟨⟨"", 0, "", "a", 1, "h"⟩, ⟨0, 0, 0, 0, 0, 0, 0, 0, 0, 0⟩, 0⟩

/-- Claim C5 is false as stated: against the reachable IDF store left by
`addDocument(docA); removeDocument(docB)` (where `DF[1] = 1 > N = 0`), the
BM25 feature computed for query "a" and a candidate whose body is "a" equals
`1 - exp(-log1p((0 - 1 + 0.5)/1.5)) = -1/2`, outside [0, 1]. -/
theorem c5_counterexample :
    (updateFeaturesForCandidate tokTwo (fun _ => none) (fun _ => none)
      5 1 0 unbalancedState.DF unbalancedState.N unbalancedState.TotalTokens
      "a" candA).features.BM25 = -(1 / 2) ∧
    ¬ (0 ≤ (updateFeaturesForCandidate tokTwo (fun _ => none) (fun _ => none)
      5 1 0 unbalancedState.DF unbalancedState.N unbalancedState.TotalTokens
      "a" candA).features.BM25) := by
  have hDFval : unbalancedState.DF = [(1, 1)] := by
    rw [unbalancedState_eval]
  have hNval : unbalancedState.N = 0 := by
    rw [unbalancedState_eval]
  have hTTval : unbalancedState.TotalTokens = 0 := by
    rw [unbalancedState_eval]
  rw [hDFval, hNval, hTTval]
  have hbm : bm25Score 1 0 [1] [1] candA.payload.tokenCount [(1, 1)] 0 1 =
      Real.log (2 / 3) := by
    simp only [bm25Score, candA]
    norm_num [alGet]
  have harg : (updateFeaturesForCandidate tokTwo (fun _ => none)
      (fun _ => none) 5 1 0 [(1, 1)] 0 0 "a" candA).features.BM25 =
      normalizeBM25 (Real.log (2 / 3)) := by
    simp only [updateFeaturesForCandidate, tokTwo, uniqueInts, uniqueIntsAux,
      candA]
    norm_num
    rw [← hbm]
    simp [candA]
  rw [harg]
  have hval : normalizeBM25 (Real.log (2 / 3)) = -(1 / 2) := by
    unfold normalizeBM25
    rw [Real.exp_neg, Real.exp_log (by norm_num : (0 : ℝ) < 2 / 3)]
    norm_num
  rw [hval]
  norm_num

theorem c5_witness :
    ((0 : ℝ) ≤ 1 ∧ (0 : Int) ≤ candA.payload.tokenCount) ∧
    rerankFeaturesBounded (updateFeaturesForCandidate tokTwo (fun _ => none)
      (fun _ => none) 5 1 0 [] 0 0 "a" candA).features := by
  refine ⟨⟨zero_le_one, by decide⟩, ?_⟩
  exact c5_rerank_features_unit tokTwo (fun _ => none) (fun _ => none)
    5 1 0 [] 0 0 "a" candA
    (fun id w h => nomatch h)
    (fun g w h => nomatch h)
    (fun q v h => nomatch h)
    zero_le_one le_rfl zero_le_one
    (by decide)
    (by
      constructor
      · constructor <;> norm_num [candA]
      · refine ⟨?_, ?_, ?_, ?_⟩ <;> constructor <;> norm_num [candA])

theorem mem_uniqueIntsAux (x : Nat) (ids seen : List Nat) :
    x ∈ uniqueIntsAux ids seen ↔ x ∈ ids ∧ x ∉ seen := by
  induction ids generalizing seen with
  | nil => simp [uniqueIntsAux]
  | cons y rest ih =>
      by_cases hy : y ∈ seen
      · rw [uniqueIntsAux, if_pos hy, ih]
        constructor
        · rintro ⟨h1, h2⟩
          exact ⟨List.mem_cons_of_mem y h1, h2⟩
        · rintro ⟨h1, h2⟩
          rcases List.mem_cons.mp h1 with h | h
          · subst h
            exact absurd hy h2
          · exact ⟨h, h2⟩
      · rw [uniqueIntsAux, if_neg hy]
        constructor
        · intro h
          rcases List.mem_cons.mp h with h | h
          · subst h
            exact ⟨List.mem_cons_self x rest, hy⟩
          · rw [ih] at h
            refine ⟨List.mem_cons_of_mem y h.1, fun hx => h.2 ?_⟩
            exact List.mem_cons_of_mem y hx
        · rintro ⟨h1, h2⟩
          rcases List.mem_cons.mp h1 with h | h
          · subst h
            exact List.mem_cons_self x _
          · by_cases hxy : x = y
            · subst hxy
              exact List.mem_cons_self x _
            · refine List.mem_cons_of_mem y ?_
              rw [ih]
              refine ⟨h, fun hx => ?_⟩
              rcases List.mem_cons.mp hx with h3 | h3
              · exact hxy h3
              · exact h2 h3

theorem mem_uniqueInts (x : Nat) (ids : List Nat) :
    x ∈ uniqueInts ids ↔ x ∈ ids := by
  rw [uniqueInts, mem_uniqueIntsAux]
  simp

theorem uniqueInts_eq_nil_iff (ids : List Nat) :
    uniqueInts ids = [] ↔ ids = [] := by
  cases ids with
  | nil => simp [uniqueInts, uniqueIntsAux]
  | cons x rest => simp [uniqueInts, uniqueIntsAux]

theorem uniqueIntsAux_of_nodup (ids : List Nat) :
    ∀ seen, ids.Nodup → (∀ x ∈ ids, x ∉ seen) →
      uniqueIntsAux ids seen = ids := by
  induction ids with
  | nil => intro seen _ _; rfl
  | cons y rest ih =>
      intro seen hnd hdis
      have hy : y ∉ seen := hdis y (List.mem_cons_self y rest)
      rw [uniqueIntsAux, if_neg hy]
      congr 1
      apply ih (y :: seen) (List.Nodup.of_cons hnd)
      intro x hx
      intro hmem
      rcases List.mem_cons.mp hmem with h | h
      · subst h
        exact (List.nodup_cons.mp hnd).1 hx
      · exact hdis x (List.mem_cons_of_mem y hx) h

theorem uniqueInts_of_nodup (ids : List Nat) (h : ids.Nodup) :
    uniqueInts ids = ids :=
  uniqueIntsAux_of_nodup ids [] h (by simp)

/-- The KeywordOverlap formula as the spec words it: the size of the
intersection of the unique query token ids with the unique document token
ids, divided by the number of unique query token ids. -/
noncomputable def specKeywordOverlap (tokenize : String → List Nat)
    (query docBody : String) : ℝ :=
  ((uniqueInts (tokenize query)).countP
      (fun id => decide (id ∈ uniqueInts (tokenize docBody))) : ℝ) /
    ((uniqueInts (tokenize query)).length : ℝ)

/-- Claim C6 (amended): for non-empty query and document token sequences, the
KeywordOverlap feature equals the number of query token OCCURRENCES (the raw,
non-deduplicated query token sequence) whose id appears among the document's
unique token ids, divided by the total query token count; when the query's
token sequence has no duplicates this coincides with the claimed unique-set
ratio. -/
theorem c6_keyword_overlap_occurrences (tokenize : String → List Nat)
    (wIDF : Nat → Option ℝ) (wNg : List Nat → Option ℝ)
    (maxQueryTokens : Nat) (k1 b : ℝ) (DF : List (Nat × Nat)) (N : Nat)
    (TotalTokens : Int) (query : String) (cand : Candidate)
    (hq : tokenize query ≠ []) (hd : tokenize cand.payload.body ≠ []) :
    (updateFeaturesForCandidate tokenize wIDF wNg maxQueryTokens k1 b DF N
      TotalTokens query cand).features.KeywordOverlap =
      (((tokenize query).countP
          (fun id => decide (id ∈ uniqueInts (tokenize cand.payload.body))) :
        ℝ)) / (((tokenize query).length : ℝ)) ∧
    ((tokenize query).Nodup →
      (updateFeaturesForCandidate tokenize wIDF wNg maxQueryTokens k1 b DF N
        TotalTokens query cand).features.KeywordOverlap =
        specKeywordOverlap tokenize query cand.payload.body) := by
  have h1 : ¬ uniqueInts (tokenize query) = [] := by
    rw [uniqueInts_eq_nil_iff]
    exact hq
  have hcnt : (tokenize query).countP
      (fun id => decide (id ∈ tokenize cand.payload.body)) =
      (tokenize query).countP
      (fun id => decide (id ∈ uniqueInts (tokenize cand.payload.body))) := by
    apply List.countP_congr
    intro x _
    simp [mem_uniqueInts]
  have hmain : (updateFeaturesForCandidate tokenize wIDF wNg maxQueryTokens
      k1 b DF N TotalTokens query cand).features.KeywordOverlap =
      (((tokenize query).countP
          (fun id => decide (id ∈ uniqueInts (tokenize cand.payload.body))) :
        ℝ)) / (((tokenize query).length : ℝ)) := by
    simp only [updateFeaturesForCandidate]
    rw [if_neg h1, if_neg hd]
    simp only [keywordOverlapIDs]
    rw [if_neg hq, if_neg hd, hcnt]
  refine ⟨hmain, fun hnd => ?_⟩
  rw [hmain, specKeywordOverlap, uniqueInts_of_nodup (tokenize query) hnd]

/-- A concrete tokenizer with a duplicated query token: "q" ↦ [1, 1, 2],
"d" ↦ [1]. -/
def tokC6 : String → List Nat := fun s =>
  if s = "q" then [1, 1, 2] else if s = "d" then [1] else []

/-- A concrete candidate whose body tokenizes (under tokC6) to [1]. -/
def candD : Candidate :=
  ⟨⟨"", 0, "", "d", 1, "hd"⟩, ⟨0, 0, 0, 0, 0, 0, 0, 0, 0, 0⟩, 0⟩

/-- Claim C6 is false as stated: for the query token sequence [1, 1, 2] and
document token sequence [1], the computed KeywordOverlap is 2/3 (the
denominator counts raw query tokens, the numerator counts occurrences),
while the claimed unique-set ratio |unique_q ∩ unique_d| / |unique_q| is
1/2. -/
theorem tokC6_q : tokC6 "q" = [1, 1, 2] := by decide

theorem tokC6_d : tokC6 "d" = [1] := by decide

theorem c6_counterexample :
    (updateFeaturesForCandidate tokC6 (fun _ => none) (fun _ => none)
      5 1 0 [] 0 0 "q" candD).features.KeywordOverlap = 2 / 3 ∧
    specKeywordOverlap tokC6 "q" "d" = 1 / 2 ∧
    ((2 : ℝ) / 3) ≠ 1 / 2 := by
  have hu1 : uniqueInts [1, 1, 2] = [1, 2] := by decide
  have hu2 : uniqueInts [1] = [1] := by decide
  have hc1 : List.countP (fun id => decide (id ∈ ([1] : List Nat)))
      [1, 1, 2] = 2 := by decide
  have hc2 : List.countP (fun id => decide (id ∈ ([1] : List Nat)))
      [1, 2] = 1 := by decide
  have hne1 : ¬ ([1, 2] : List Nat) = [] := by decide
  have hne2 : ¬ ([1, 1, 2] : List Nat) = [] := by decide
  refine ⟨?_, ?_, by norm_num⟩
  · simp only [updateFeaturesForCandidate, candD]
    simp only [tokC6_q, tokC6_d, keywordOverlapIDs, hu1]
    norm_num [hc1]
    rw [if_neg hne1]
    dsimp only
    rw [if_neg hne2]
  · show ((uniqueInts (tokC6 "q")).countP
        (fun id => decide (id ∈ uniqueInts (tokC6 "d"))) : ℝ) /
        ((uniqueInts (tokC6 "q")).length : ℝ) = 1 / 2
    rw [tokC6_q, tokC6_d, hu1, hu2, hc2]
    norm_num

theorem c6_witness :
    (tokTwo "a" ≠ [] ∧ tokTwo candA.payload.body ≠ []) ∧
    ((updateFeaturesForCandidate tokTwo (fun _ => none) (fun _ => none)
      5 1 0 [] 0 0 "a" candA).features.KeywordOverlap =
      (((tokTwo "a").countP
          (fun id => decide (id ∈ uniqueInts (tokTwo candA.payload.body))) :
        ℝ)) / (((tokTwo "a").length : ℝ)) ∧
    ((tokTwo "a").Nodup →
      (updateFeaturesForCandidate tokTwo (fun _ => none) (fun _ => none)
        5 1 0 [] 0 0 "a" candA).features.KeywordOverlap =
        specKeywordOverlap tokTwo "a" candA.payload.body)) := by
  have hq : tokTwo "a" ≠ [] := by simp [tokTwo]
  have hd : tokTwo candA.payload.body ≠ [] := by simp [tokTwo, candA]
  exact ⟨⟨hq, hd⟩, c6_keyword_overlap_occurrences tokTwo (fun _ => none)
    (fun _ => none) 5 1 0 [] 0 0 "a" candA hq hd⟩

theorem listNgrams_two_length (l : List Nat) (g : List Nat)
    (hg : g ∈ listNgrams l 2) : g.length = 2 := by
  rw [listNgrams] at hg
  rw [if_neg (by decide : ¬ (2 : Nat) ≤ 1)] at hg
  by_cases hl : l.length < 2
  · rw [if_pos hl] at hg
    exact absurd hg (List.not_mem_nil g)
  · rw [if_neg hl] at hg
    obtain ⟨i, hi, rfl⟩ := List.mem_map.mp hg
    rw [List.mem_range] at hi
    rw [List.length_take, List.length_drop]
    omega

/-- Claim C10: every `updateDocumentInIDF` call touches the n-gram tables
exactly within the bigram-and-trigram fingerprints of the document's token
sequence (any changed key belongs to that set, and on add every such key's
frequency is incremented), while the rerank-time n-gram features consult
only bigrams: `updateFeaturesForCandidate` is insensitive to the n-gram IDF
map outside length-2 n-grams. -/
theorem c10_ngram_bigram_trigram_scope {V : Type} [Zero V]
    (tokenize : String → List Nat) (F : Nat → Nat → V)
    (ngHash : List Nat → Nat) :
    (∀ (S : IDFStore V) (d : Doc) (mode : Int) (k : Nat),
      alGet (updateDocumentInIDF tokenize F ngHash d mode S).NgramDF k ≠
        alGet S.NgramDF k →
      k ∈ ngramHashes ngHash (tokenize d.body) 2 ++
        ngramHashes ngHash (tokenize d.body) 3) ∧
    (∀ (S : IDFStore V) (d : Doc) (k : Nat),
      k ∈ ngramHashes ngHash (tokenize d.body) 2 ++
        ngramHashes ngHash (tokenize d.body) 3 →
      (alGet (addDocumentToIDF tokenize F ngHash d S).NgramDF k).getD 0 =
        (alGet S.NgramDF k).getD 0 + 1) ∧
    (∀ (wIDF : Nat → Option ℝ) (wNg wNg' : List Nat → Option ℝ)
      (maxQueryTokens : Nat) (k1 b : ℝ) (DF : List (Nat × Nat)) (N : Nat)
      (TotalTokens : Int) (query : String) (cand : Candidate)
      (tok2 : String → List Nat),
      (∀ g, g.length = 2 → wNg g = wNg' g) →
      updateFeaturesForCandidate tok2 wIDF wNg maxQueryTokens k1 b DF N
        TotalTokens query cand =
      updateFeaturesForCandidate tok2 wIDF wNg' maxQueryTokens k1 b DF N
        TotalTokens query cand) := by
  refine ⟨?_, ?_, ?_⟩
  · intro S d mode k hne
    by_contra hk
    apply hne
    simp only [updateDocumentInIDF]
    exact (procTokens_get_notmem F _ mode _ [] (S.NgramDF, S.NgramIDF)
      k hk).1
  · intro S d k hk
    simp only [addDocumentToIDF, updateDocumentInIDF]
    rw [procTokens_getD]
    rw [if_pos hk]
    simp [dfStep]
  · intro wIDF wNg wNg' maxQueryTokens k1 b DF N TotalTokens query cand
      tok2 hagree
    simp only [updateFeaturesForCandidate]
    by_cases h1 : uniqueInts (tok2 query) = []
    · rw [if_pos h1, if_pos h1]
    · rw [if_neg h1, if_neg h1]
      by_cases h2 : tok2 cand.payload.body = []
      · rw [if_pos h2, if_pos h2]
      · rw [if_neg h2, if_neg h2]
        have hwng : ∀ (qIDs docIDs : List Nat),
            weightedNgramOverlap wNg qIDs docIDs 2 1 =
            weightedNgramOverlap wNg' qIDs docIDs 2 1 := by
          intro qIDs docIDs
          simp only [weightedNgramOverlap]
          have hmap1 : (listNgrams qIDs 2).map
              (fun g => (wNg g).getD 1) = (listNgrams qIDs 2).map
              (fun g => (wNg' g).getD 1) := by
            apply List.map_congr_left
            intro g hg
            rw [hagree g (listNgrams_two_length qIDs g hg)]
          have hmap2 : (listNgrams qIDs 2).map
              (fun g => if g ∈ listNgrams docIDs 2
                then (wNg g).getD 1 else 0) =
              (listNgrams qIDs 2).map
              (fun g => if g ∈ listNgrams docIDs 2
                then (wNg' g).getD 1 else 0) := by
            apply List.map_congr_left
            intro g hg
            rw [hagree g (listNgrams_two_length qIDs g hg)]
          rw [hmap1, hmap2]
        rw [hwng]

theorem c10_witness :
    (hashSum [1, 2] ∈ ngramHashes hashSum (tokC6 "q") 2 ++
      ngramHashes hashSum (tokC6 "q") 3) ∧
    (alGet (addDocumentToIDF tokC6 (idfValue false) hashSum
        (⟨"q", 3, "hq"⟩ : Doc) (initEmptyIDFStore ℝ)).NgramDF
      (hashSum [1, 2])).getD 0 =
    (alGet (initEmptyIDFStore ℝ).NgramDF (hashSum [1, 2])).getD 0 + 1 := by
  have hmem : hashSum [1, 2] ∈ ngramHashes hashSum (tokC6 "q") 2 ++
      ngramHashes hashSum (tokC6 "q") 3 := by decide
  exact ⟨hmem, (c10_ngram_bigram_trigram_scope tokC6 (idfValue false)
    hashSum).2.1 (initEmptyIDFStore ℝ) (⟨"q", 3, "hq"⟩ : Doc)
    (hashSum [1, 2]) hmem⟩

/-! ## Rerank scoring (scoreCandidate) and configuration validation -/

/-- scoreCandidate (retrieval/rerank file, lines 120-145): `none` models the
Go panic taken when the weight list does not have exactly 10 entries;
otherwise the weighted sum over the 10 feature values in order. -/
noncomputable def scoreCandidate (f : Features) (weights : List ℝ) :
    Option ℝ :=
  if weights.length ≠ 10 then none
  else
    some ((([f.EmbSim, f.Recency, f.RoleScore, f.BodyLen, f.PayloadQuality,
      f.KeywordOverlap, f.WeightedOverlap, f.BM25, f.NgramOverlap,
      f.WeightedNgram].zip weights).map (fun p => p.1 * p.2)).sum)

/-- The DefaultWeights section of validateConfig (src/src/config.go lines
484-492): the weight list must have exactly 9 entries, each non-negative. -/
def validateDefaultWeights (ws : List ℝ) : Prop :=
  ws.length = 9 ∧ ∀ w ∈ ws, 0 ≤ w

/-- Claim C2 describes the intended behavior, but the code contradicts it
and itself (code bug): every weight list accepted by validateConfig has
exactly 9 entries, yet scoreCandidate — which the rerank loop calls with
exactly the configured weights — panics unless the list has exactly 10
entries (its own doc comment says "weights must have length == 10"), so
rerank scoring of any candidate under any validated configuration reaches
the weight-length panic. -/
theorem c2_nine_weights_always_panic (ws : List ℝ)
    (h : validateDefaultWeights ws) :
    ws.length = 9 ∧ ∀ f : Features, scoreCandidate f ws = none := by
  refine ⟨h.1, fun f => ?_⟩
  rw [scoreCandidate, if_pos]
  rw [h.1]
  decide

theorem c2_witness :
    validateDefaultWeights [0, 0, 0, 0, 0, 0, 0, 0, 0] ∧
    (([0, 0, 0, 0, 0, 0, 0, 0, 0] : List ℝ).length = 9 ∧
      ∀ f : Features,
        scoreCandidate f [0, 0, 0, 0, 0, 0, 0, 0, 0] = none) := by
  have hv : validateDefaultWeights [0, 0, 0, 0, 0, 0, 0, 0, 0] := by
    constructor
    · rfl
    · intro w hw
      simp at hw
      rw [hw]
  exact ⟨hv, c2_nine_weights_always_panic [0, 0, 0, 0, 0, 0, 0, 0, 0] hv⟩

/-! ## Context packing (calcSizes) and inbound processing -/

/-- The window remainder computed by calcSizes: the model window minus the
metadata size, the system-message size when present, the user-prompt size,
and the precomputed messages-wrapper constant. -/
def calcWindowRemainder (windowSize wrapperSize metaSize sysSize
    userSize : Int) (sysFound : Bool) : Int :=
  windowSize - metaSize - (if sysFound then sysSize else 0) - userSize -
    wrapperSize

/-- calcSizes (context-packing file, lines 69-106): subtract the mandatory
parts from the model window; a negative remainder is an error ("not enough
window size"), otherwise the remainder splits into feed and history budgets
by FeedAugmentationPercent.  The individual part sizes come from JSON
marshalling plus tokenization, both external, so they are inputs here. -/
def calcSizes (windowSize wrapperSize metaSize sysSize userSize : Int)
    (sysFound : Bool) (feedPercent : Int) : Option (Int × Int) :=
  let w := calcWindowRemainder windowSize wrapperSize metaSize sysSize
    userSize sysFound
  if w < 0 then none
  else some (w * feedPercent / 100, w - w * feedPercent / 100)

/-- The measured sizes of one parsed request (calcMetaSize,
calcSystemMsgSize, calcUserPromptSize). -/
structure ReqSizes where
  metaSize : Int
  sysSize : Int
  userSize : Int
  sysFound : Bool

/-- feedPrompt (inbound-processing file, lines 610-686), to the depth that
decides claim C9: a calcSizes failure aborts with an error before any
rewriting; otherwise the retrieval/packing continuation `cont` (embedding,
search, feed and history selection, message reassembly) runs. -/
def feedPrompt {Req : Type} (sizesOf : Req → ReqSizes)
    (windowSize wrapperSize feedPercent : Int)
    (cont : Req → Int × Int → Option Req) (req : Req) : Option Req :=
  match calcSizes windowSize wrapperSize (sizesOf req).metaSize
      (sizesOf req).sysSize (sizesOf req).userSize (sizesOf req).sysFound
      feedPercent with
  | none => none
  | some fh => cont req fh

/-- processInbound (inbound-processing file, lines 689-754): bodies that do
not parse, message-processing failures, and feedPrompt errors all fall
through to returning the original inbound data unmodified; only a successful
pack returns the re-marshalled rewritten request. -/
def processInbound {Req : Type} (parseReq : String → Option Req)
    (procMsgs : Req → Option String) (sizesOf : Req → ReqSizes)
    (windowSize wrapperSize feedPercent : Int)
    (cont : Req → Int × Int → Option Req) (marshalReq : Req → String)
    (data : String) : String :=
  match parseReq data with
  | none => data
  | some req =>
      match procMsgs req with
      | none => data
      | some _ =>
          match feedPrompt sizesOf windowSize wrapperSize feedPercent cont
              req with
          | none => data
          | some req2 => marshalReq req2

/-- Claim C9: for every inbound request whose window remainder (model window
minus meta size, system-message size, user-prompt size and the
messages-wrapper constant) is negative, calcSizes fails with an error and
processInbound returns the original inbound data, which is then forwarded
upstream unmodified. -/
theorem c9_negative_remainder_forwards_original {Req : Type}
    (parseReq : String → Option Req) (procMsgs : Req → Option String)
    (sizesOf : Req → ReqSizes) (windowSize wrapperSize feedPercent : Int)
    (cont : Req → Int × Int → Option Req) (marshalReq : Req → String)
    (data : String) (req : Req)
    (hparse : parseReq data = some req)
    (hneg : calcWindowRemainder windowSize wrapperSize (sizesOf req).metaSize
      (sizesOf req).sysSize (sizesOf req).userSize
      (sizesOf req).sysFound < 0) :
    calcSizes windowSize wrapperSize (sizesOf req).metaSize
      (sizesOf req).sysSize (sizesOf req).userSize (sizesOf req).sysFound
      feedPercent = none ∧
    processInbound parseReq procMsgs sizesOf windowSize wrapperSize
      feedPercent cont marshalReq data = data := by
  have hcs : calcSizes windowSize wrapperSize (sizesOf req).metaSize
      (sizesOf req).sysSize (sizesOf req).userSize (sizesOf req).sysFound
      feedPercent = none := by
    rw [calcSizes]
    simp only [hneg, if_pos]
  refine ⟨hcs, ?_⟩
  rw [processInbound, hparse]
  cases hpm : procMsgs req with
  | none => simp [hpm]
  | some s => simp [hpm, feedPrompt, hcs]

theorem c9_witness :
    ((fun _ => some () : String → Option Unit) "orig" = some () ∧
      calcWindowRemainder 5 0 10 0 0 false < 0) ∧
    (calcSizes 5 0 10 0 0 false 50 = none ∧
      processInbound (fun _ => some ()) (fun _ => some "")
        (fun _ => ⟨10, 0, 0, false⟩) 5 0 50 (fun r _ => some r)
        (fun _ => "changed") "orig" = "orig") := by
  have hparse : (fun _ => some () : String → Option Unit) "orig" =
      some () := rfl
  have hneg : calcWindowRemainder 5 0 10 0 0 false < 0 := by decide
  exact ⟨⟨hparse, hneg⟩,
    c9_negative_remainder_forwards_original (fun _ => some ())
      (fun _ => some "") (fun _ => ⟨10, 0, 0, false⟩) 5 0 50
      (fun r _ => some r) (fun _ => "changed") "orig" () hparse hneg⟩

/-! ## Stream interceptor (src/src/writer.go)

The Go regexp engine and the tokenizer used for re-synthesis are external
libraries; a rule's matcher (`FindStringIndex ≠ nil`) and replacer
(`ReplaceAllString`) are abstract functions, as are the per-token re-encoding
(`Tokenizer.Encode`/`Decode`) and the raw-data synthesis
(`setCreatedAtIfPresent` + `sjson.Set` + SSE wrapping).  The dedicated writer
goroutine drains the outgoing deque in FIFO order; the model keeps the queue
and reads it at the end, which corresponds to the legal schedule in which the
consumer runs after the producer. -/

/-- One response-replacer rule: matcher and replacement function. -/
structure RRule where
  matchesFn : String → Bool
  repFn : String → String

/-- One response-replacer record: a literal trigger substring plus rules. -/
structure RRecord where
  trigger : String
  rules : List RRule

/-- applyReplaceRulesToString (src/src/writer.go lines 565-589): fold every
record's rules over the text; a rule that matches and whose replacement
changes the text updates it and sets the changed flag. -/
def applyRuleStep (acc : String × Bool) (r : RRule) : String × Bool :=
  if r.matchesFn acc.1 = false then acc
  else
    let newOut := r.repFn acc.1
    if newOut ≠ acc.1 then (newOut, true) else acc

def applyReplaceRulesToString (records : List RRecord) (src : String) :
    String × Bool :=
  records.foldl (fun acc rec => rec.rules.foldl applyRuleStep acc)
    (src, false)

/-- containsTrigger (src/src/writer.go lines 628-641): does some record's
non-empty trigger occur as a substring of the buffer? -/
def containsTrigger (records : List RRecord) (s : String) : Bool :=
  records.any (fun rec =>
    decide (rec.trigger ≠ "") && decide (rec.trigger.data <:+: s.data))

/-- A classified packet as the interceptor sees it: its wire data, the text
at its configured message path (empty for finish frames), and whether it is
the FinishStream terminator. -/
structure WPacket where
  raw : String
  text : String
  isFinish : Bool
deriving DecidableEq

/-- The mutable per-response state of ResponseCollector. -/
structure WState where
  incoming : List WPacket
  curBuf : String
  globalBuf : String
  collecting : Bool
  complete : Bool
  templFinish : Option WPacket
  outQ : List WPacket
deriving DecidableEq

/-- NewResponseCollector: the zero-valued initial state. -/
def initialWState : WState := ⟨[], "", "", false, false, none, []⟩

/-- EnqueuePacket (src/src/writer.go lines 107-124): push to the outgoing
deque, except that a packet whose wire data equals the deque's current last
element's wire data is dropped (the consecutive-duplicate guard). -/
def enqueuePacket (q : List WPacket) (p : WPacket) : List WPacket :=
  match q.getLast? with
  | some last => if last.raw = p.raw then q else q ++ [p]
  | none => q ++ [p]

def enqueueAll (q : List WPacket) (ps : List WPacket) : List WPacket :=
  ps.foldl enqueuePacket q

/-- The Stream branch of Write (src/src/writer.go lines 220-273): append the
frame's text and the frame itself to the buffers; while not collecting, once
the buffer's rune length reaches maxTriggerLen either start collecting (a
trigger occurs in the buffer) or flush the buffered frames downstream. -/
def writeStream (records : List RRecord) (maxTrigLen : Nat) (st : WState)
    (p : WPacket) : WState :=
  let cur := st.curBuf ++ p.text
  let inc := st.incoming ++ [p]
  if st.collecting then
    ⟨inc, cur, st.globalBuf, true, st.complete, st.templFinish, st.outQ⟩
  else if maxTrigLen ≤ cur.length then
    if containsTrigger records cur then
      ⟨inc, cur, st.globalBuf, true, st.complete, st.templFinish, st.outQ⟩
    else
      ⟨[], "", st.globalBuf ++ cur, false, st.complete, st.templFinish,
        enqueueAll st.outQ inc⟩
  else ⟨inc, cur, st.globalBuf, false, st.complete, st.templFinish, st.outQ⟩

/-- The FinishStream branch of Write (src/src/writer.go lines 183-218): mark
complete and remember the finish frame as template; while collecting the
finish frame is withheld, otherwise all buffered frames and then the finish
frame are enqueued. -/
def writeFinish (st : WState) (p : WPacket) : WState :=
  if st.collecting then
    ⟨st.incoming, st.curBuf, st.globalBuf, true, true, some p, st.outQ⟩
  else
    ⟨[], "", st.globalBuf ++ st.curBuf, false, true, some p,
      enqueuePacket (enqueueAll st.outQ st.incoming) p⟩

def wstep (records : List RRecord) (maxTrigLen : Nat) (st : WState)
    (p : WPacket) : WState :=
  if p.isFinish then writeFinish st p else writeStream records maxTrigLen st p

/-- The re-synthesized finish frame of the changed branch of CloseAndProcess
(built from templateFinishPacket; its wire data goes through the created-at
refresh and SSE wrapping, abstracted as `injFinish`; the zero template is an
empty packet). -/
def synthFinish (injFinish : String → String) (t : Option WPacket) :
    WPacket :=
  match t with
  | some f => ⟨injFinish f.raw, f.text, f.isFinish⟩
  | none => ⟨"", "", false⟩

/-- CloseAndProcess (src/src/writer.go lines 293-417): nothing is flushed
unless the finish frame was seen; while collecting with a non-empty buffer,
apply the substitution rules to the buffer — on change re-synthesize one
frame per token of the replaced text from the first buffered frame
(`injStream templ.raw index tokenString`) plus a finish frame (an error from
WriteTemplatePacket leaves the retained frames unflushed), on no change
append the withheld template finish frame; otherwise flush what remains;
finally enqueue and clear. -/
def closeAndProcess (records : List RRecord)
    (encodeTokens : String → List String)
    (injStream : String → Nat → String → String)
    (injFinish : String → String) (st : WState) : WState :=
  if st.complete = false then st
  else if st.collecting = true ∧ st.curBuf ≠ "" then
    let pr := applyReplaceRulesToString records st.curBuf
    let g2 := st.globalBuf ++ pr.1
    if pr.2 then
      match st.incoming.head? with
      | none =>
          ⟨st.incoming, st.curBuf, g2, st.collecting, st.complete,
            st.templFinish, st.outQ⟩
      | some templ =>
          let pkts := ((encodeTokens pr.1).enum.map
              (fun q => (⟨injStream templ.raw q.1 q.2, q.2, false⟩ :
                WPacket))) ++ [synthFinish injFinish st.templFinish]
          ⟨[], st.curBuf, g2, st.collecting, st.complete, st.templFinish,
            enqueueAll st.outQ pkts⟩
    else
      let lastIsFin : Bool :=
        match st.incoming.getLast? with
        | some l => l.isFinish
        | none => false
      let tf : WPacket := st.templFinish.getD ⟨"", "", false⟩
      let inc2 :=
        if lastIsFin = false ∧ tf.isFinish = true then st.incoming ++ [tf]
        else st.incoming
      ⟨[], st.curBuf, g2, st.collecting, st.complete, st.templFinish,
        enqueueAll st.outQ inc2⟩
  else
    ⟨[], "", st.globalBuf ++ st.curBuf, st.collecting, st.complete,
      st.templFinish, enqueueAll st.outQ st.incoming⟩

/-- A full streamed response: feed every frame through Write, then finalize
with CloseAndProcess. -/
def runWriter (records : List RRecord) (maxTrigLen : Nat)
    (encodeTokens : String → List String)
    (injStream : String → Nat → String → String)
    (injFinish : String → String) (frames : List WPacket) : WState :=
  closeAndProcess records encodeTokens injStream injFinish
    (frames.foldl (wstep records maxTrigLen) initialWState)

/-- The concatenation of the message-path texts of a frame sequence. -/
def concatTexts : List WPacket → String
  | [] => ""
  | p :: ps => p.text ++ concatTexts ps

/-- The concatenation of a list of strings (per-token decode results). -/
def joinAll : List String → String
  | [] => ""
  | s :: rest => s ++ joinAll rest

theorem concatTexts_append (l1 l2 : List WPacket) :
    concatTexts (l1 ++ l2) = concatTexts l1 ++ concatTexts l2 := by
  induction l1 with
  | nil => simp [concatTexts]
  | cons p rest ih => simp [concatTexts, ih, String.append_assoc]

/-- Distinct wire data, the relation under which the duplicate guard of
EnqueuePacket never fires. -/
def rawNe (a b : WPacket) : Prop := a.raw ≠ b.raw

theorem enqueuePacket_eq_append (q : List WPacket) (p : WPacket)
    (h : ∀ last ∈ q.getLast?, last.raw ≠ p.raw) :
    enqueuePacket q p = q ++ [p] := by
  cases hq : q.getLast? with
  | none => simp [enqueuePacket, hq]
  | some last => simp [enqueuePacket, hq, h last (Option.mem_def.mpr hq)]

theorem enqueueAll_eq_append (ps : List WPacket) :
    ∀ q : List WPacket, List.Chain' rawNe (q ++ ps) →
      enqueueAll q ps = q ++ ps := by
  induction ps with
  | nil =>
      intro q _
      simp [enqueueAll]
  | cons p rest ih =>
      intro q h
      obtain ⟨h1, h2, h3⟩ := List.chain'_append.mp h
      have hq : enqueuePacket q p = q ++ [p] :=
        enqueuePacket_eq_append q p
          (fun last hlast => h3 last hlast p (Option.mem_def.mpr rfl))
      show enqueueAll (enqueuePacket q p) rest = q ++ p :: rest
      rw [hq]
      have hch2 : List.Chain' rawNe ((q ++ [p]) ++ rest) := by
        simpa using h
      rw [ih (q ++ [p]) hch2]
      simp

theorem infix_append_right {α : Type} {t l : List α} (r : List α)
    (h : t <:+: l) : t <:+: l ++ r :=
  h.trans (List.prefix_append l r).isInfix

/-- The shape of the interceptor state after any prefix of stream frames
with pairwise-distinct adjacent wire data: the frames split into a flushed
prefix (now the outgoing queue, its texts in the global buffer, forwarded
verbatim) and a pending suffix (the in-memory buffer); when collecting was
switched on, some configured non-empty trigger occurs in the pending text. -/
theorem writer_fold_shape (records : List RRecord) (maxTrigLen : Nat)
    (xs : List WPacket) :
    (∀ p ∈ xs, p.isFinish = false) → List.Chain' rawNe xs →
    ∃ fl pe c, xs = fl ++ pe ∧
      xs.foldl (wstep records maxTrigLen) initialWState =
        ⟨pe, concatTexts pe, concatTexts fl, c, false, none, fl⟩ ∧
      (c = true → pe ≠ [] ∧ ∃ rec ∈ records, rec.trigger ≠ "" ∧
        rec.trigger.data <:+: (concatTexts pe).data) := by
  induction xs using List.reverseRecOn with
  | nil =>
      intro _ _
      exact ⟨[], [], false, rfl, rfl, by simp⟩
  | append_singleton ys p ih =>
      intro hstream hchain
      have hchain_ys : List.Chain' rawNe ys :=
        (List.chain'_append.mp hchain).1
      have hstream_ys : ∀ q ∈ ys, q.isFinish = false :=
        fun q hq => hstream q (List.mem_append_left _ hq)
      obtain ⟨fl, pe, c, hsplit, hstate, hcond⟩ := ih hstream_ys hchain_ys
      have hp : p.isFinish = false :=
        hstream p (List.mem_append_right _ (List.mem_cons_self p []))
      rw [List.foldl_append, hstate]
      have hw : wstep records maxTrigLen
          ⟨pe, concatTexts pe, concatTexts fl, c, false, none, fl⟩ p =
          writeStream records maxTrigLen
            ⟨pe, concatTexts pe, concatTexts fl, c, false, none, fl⟩ p := by
        rw [wstep, if_neg (by simp [hp])]
      rw [List.foldl_cons, List.foldl_nil, hw]
      have htext : concatTexts pe ++ p.text = concatTexts (pe ++ [p]) := by
        rw [concatTexts_append]
        simp [concatTexts]
      cases c with
      | true =>
          refine ⟨fl, pe ++ [p], true, by rw [hsplit, List.append_assoc],
            ?_, ?_⟩
          · rw [writeStream]
            simp only [if_pos]
            rw [htext]
          · intro _
            refine ⟨by simp, ?_⟩
            obtain ⟨rec, hrec, hne, hinf⟩ := (hcond rfl).2
            refine ⟨rec, hrec, hne, ?_⟩
            rw [concatTexts_append, String.data_append]
            exact infix_append_right _ hinf
      | false =>
          by_cases hlen : maxTrigLen ≤ (concatTexts pe ++ p.text).length
          · by_cases htrig :
                containsTrigger records (concatTexts pe ++ p.text) = true
            · refine ⟨fl, pe ++ [p], true,
                by rw [hsplit, List.append_assoc], ?_, ?_⟩
              · rw [writeStream]
                simp only [Bool.false_eq_true, if_neg, ite_false]
                rw [if_pos hlen, if_pos htrig, htext]
              · intro _
                refine ⟨by simp, ?_⟩
                obtain ⟨rec, hrec, hb⟩ := List.any_eq_true.mp htrig
                rw [Bool.and_eq_true] at hb
                refine ⟨rec, hrec, of_decide_eq_true hb.1, ?_⟩
                rw [← htext]
                exact of_decide_eq_true hb.2
            · have hflush : enqueueAll fl (pe ++ [p]) = fl ++ (pe ++ [p]) := by
                apply enqueueAll_eq_append
                rw [← List.append_assoc, ← hsplit]
                exact hchain
              refine ⟨fl ++ (pe ++ [p]), [], false,
                by rw [hsplit, List.append_assoc, List.append_nil], ?_,
                by simp⟩
              rw [writeStream]
              simp only [Bool.false_eq_true, if_neg, ite_false]
              rw [if_pos hlen, if_neg htrig, hflush]
              have hglob : concatTexts fl ++ (concatTexts pe ++ p.text) =
                  concatTexts (fl ++ (pe ++ [p])) := by
                rw [concatTexts_append, htext]
              rw [hglob]
              rfl
          · refine ⟨fl, pe ++ [p], false,
              by rw [hsplit, List.append_assoc], ?_, by simp⟩
            rw [writeStream]
            simp only [Bool.false_eq_true, if_neg, ite_false]
            rw [if_neg hlen, htext]

theorem infix_append_left {α : Type} {t r : List α} (l : List α)
    (h : t <:+: r) : t <:+: l ++ r :=
  h.trans (List.suffix_append l r).isInfix

theorem mem_of_mem_getLastQ {α : Type} {l : List α} {x : α}
    (h : x ∈ l.getLast?) : x ∈ l := by
  obtain ⟨hne, rfl⟩ := List.mem_getLast?_eq_getLast h
  exact List.getLast_mem hne

/-- Claim C7 (amended): in a streamed response in which no configured
substitution trigger occurs in the assistant text, every inbound frame
classified as Stream or FinishStream results in exactly one outbound frame,
in order — the outgoing queue equals the inbound frame sequence — provided
no two adjacent inbound frames carry identical wire data (otherwise the
EnqueuePacket consecutive-duplicate guard drops the later one, see the
counterexample). -/
theorem c7_one_outbound_per_inbound (records : List RRecord)
    (maxTrigLen : Nat) (encodeTokens : String → List String)
    (injStream : String → Nat → String → String)
    (injFinish : String → String) (streams : List WPacket) (fin : WPacket)
    (hstream : ∀ p ∈ streams, p.isFinish = false)
    (hfin : fin.isFinish = true)
    (hchain : List.Chain' rawNe (streams ++ [fin]))
    (hnotrig : ∀ rec ∈ records, rec.trigger ≠ "" →
      ¬ rec.trigger.data <:+: (concatTexts streams).data) :
    (runWriter records maxTrigLen encodeTokens injStream injFinish
      (streams ++ [fin])).outQ = streams ++ [fin] := by
  have hchain_s : List.Chain' rawNe streams :=
    (List.chain'_append.mp hchain).1
  obtain ⟨fl, pe, c, hsplit, hstate, hcond⟩ :=
    writer_fold_shape records maxTrigLen streams hstream hchain_s
  have hc : c = false := by
    cases c with
    | false => rfl
    | true =>
        exfalso
        obtain ⟨hpe, rec, hrec, hne, hinf⟩ := hcond rfl
        apply hnotrig rec hrec hne
        have hj : concatTexts streams = concatTexts fl ++ concatTexts pe := by
          rw [hsplit, concatTexts_append]
        rw [hj, String.data_append]
        exact infix_append_left _ hinf
  subst hc
  rw [runWriter, List.foldl_append, hstate, List.foldl_cons, List.foldl_nil]
  rw [wstep, if_pos (by simp [hfin])]
  have h1 : enqueueAll fl pe = fl ++ pe := by
    apply enqueueAll_eq_append
    rw [← hsplit]
    exact hchain_s
  have h2 : enqueuePacket (fl ++ pe) fin = (fl ++ pe) ++ [fin] := by
    apply enqueuePacket_eq_append
    intro last hlast
    exact (List.chain'_append.mp hchain).2.2 last
      (by rw [hsplit]; exact hlast) fin (Option.mem_def.mpr rfl)
  have hw2 : writeFinish
      ⟨pe, concatTexts pe, concatTexts fl, false, false, none, fl⟩ fin =
      ⟨[], "", concatTexts fl ++ concatTexts pe, false, true, some fin,
        (fl ++ pe) ++ [fin]⟩ := by
    rw [writeFinish]
    simp only [Bool.false_eq_true, if_neg, ite_false]
    rw [h1, h2]
  rw [hw2]
  rw [closeAndProcess]
  rw [if_neg (by simp)]
  rw [if_neg (by simp)]
  show (fl ++ pe) ++ [fin] = streams ++ [fin]
  rw [hsplit]

/-- A stream frame with wire data "r" and text "x". -/
def pX : WPacket := ⟨"r", "x", false⟩

/-- A FinishStream frame. -/
def pFin : WPacket := ⟨"[DONE]", "", true⟩

/-- Claim C7 is false as stated: with no substitution rules configured at
all (so no trigger ever fires( and a zero lookahead, two consecutive Stream
frames with identical wire data produce only one outbound frame — the
EnqueuePacket consecutive-duplicate guard drops the second — so three
inbound frames yield two outbound frames. -/
theorem c7_counterexample :
    (runWriter [] 0 (fun _ => []) (fun r _ _ => r) (fun r => r)
      [pX, pX, pFin]).outQ = [pX, pFin] ∧
    ([pX, pFin] : List WPacket) ≠ [pX, pX, pFin] := by
  constructor
  · decide
  · decide

def pR1 : WPacket := ⟨"r1", "hello ", false⟩

def pR2 : WPacket := ⟨"r2", "world", false⟩

theorem c7_witness :
    ((∀ p ∈ [pR1, pR2], p.isFinish = false) ∧
      List.Chain' rawNe ([pR1, pR2] ++ [pFin])) ∧
    (runWriter [] 3 (fun _ => []) (fun r _ _ => r) (fun r => r)
      ([pR1, pR2] ++ [pFin])).outQ = [pR1, pR2] ++ [pFin] := by
  have hs : ∀ p ∈ [pR1, pR2], p.isFinish = false := by decide
  have hch : List.Chain' rawNe ([pR1, pR2] ++ [pFin]) := by
    show List.Chain' rawNe [pR1, pR2, pFin]
    rw [List.chain'_cons, List.chain'_cons]
    exact ⟨(by decide : pR1.raw ≠ pR2.raw),
      (by decide : pR2.raw ≠ pFin.raw), by simp⟩
  exact ⟨⟨hs, hch⟩, c7_one_outbound_per_inbound [] 3 (fun _ => [])
    (fun r _ _ => r) (fun r => r) [pR1, pR2] pFin hs (by decide) hch
    (fun rec hrec _ => absurd hrec (List.not_mem_nil rec))⟩

theorem applyRuleStep_keep (acc : String × Bool) (r : RRule)
    (h : (applyRuleStep acc r).2 = false) : applyRuleStep acc r = acc := by
  by_cases h1 : r.matchesFn acc.1 = false
  · rw [applyRuleStep, if_pos h1]
  · by_cases h2 : r.repFn acc.1 ≠ acc.1
    · exfalso
      rw [applyRuleStep, if_neg h1] at h
      rw [if_pos h2] at h
      simp at h
    · rw [applyRuleStep, if_neg h1]
      simp only [h2, ite_false]

theorem foldl_ruleStep_snd_mono (rules : List RRule) :
    ∀ acc : String × Bool, acc.2 = true →
      (rules.foldl applyRuleStep acc).2 = true := by
  induction rules with
  | nil => intro acc h; exact h
  | cons r rest ih =>
      intro acc h
      rw [List.foldl_cons]
      apply ih
      rw [applyRuleStep]
      dsimp only
      split_ifs with ha hb
      · exact h
      · rfl
      · exact h

theorem foldl_ruleStep_unchanged (rules : List RRule) :
    ∀ acc : String × Bool, (rules.foldl applyRuleStep acc).2 = false →
      rules.foldl applyRuleStep acc = acc := by
  induction rules with
  | nil => intro acc _; rfl
  | cons r rest ih =>
      intro acc h
      rw [List.foldl_cons] at h ⊢
      have hstep : (applyRuleStep acc r).2 = false := by
        cases hb : (applyRuleStep acc r).2 with
        | false => rfl
        | true =>
            rw [foldl_ruleStep_snd_mono rest _ hb] at h
            exact absurd h (by simp)
      rw [ih _ h, applyRuleStep_keep acc r hstep]

theorem foldl_records_snd_mono (recs : List RRecord) :
    ∀ acc : String × Bool, acc.2 = true →
      ((recs.foldl (fun acc rec => rec.rules.foldl applyRuleStep acc)
        acc).2 = true) := by
  induction recs with
  | nil => intro acc h; exact h
  | cons rec rest ih =>
      intro acc h
      rw [List.foldl_cons]
      exact ih _ (foldl_ruleStep_snd_mono rec.rules acc h)

theorem applyReplaceRules_unchanged (records : List RRecord) (s : String)
    (h : (applyReplaceRulesToString records s).2 = false) :
    (applyReplaceRulesToString records s).1 = s := by
  have main : ∀ (recs : List RRecord) (acc : String × Bool),
      ((recs.foldl (fun acc rec => rec.rules.foldl applyRuleStep acc)
        acc).2 = false) →
      recs.foldl (fun acc rec => rec.rules.foldl applyRuleStep acc) acc =
        acc := by
    intro recs
    induction recs with
    | nil => intro acc _; rfl
    | cons rec rest ih =>
        intro acc hacc
        rw [List.foldl_cons] at hacc ⊢
        have hstep : (rec.rules.foldl applyRuleStep acc).2 = false := by
          cases hb : (rec.rules.foldl applyRuleStep acc).2 with
          | false => rfl
          | true =>
              rw [foldl_records_snd_mono rest _ hb] at hacc
              exact absurd hacc (by simp)
        rw [ih _ hacc, foldl_ruleStep_unchanged rec.rules acc hstep]
  have h2 := main records (s, false) h
  rw [applyReplaceRulesToString, h2]

theorem ne_empty_of_infix {t s : String} (ht : t ≠ "")
    (h : t.data <:+: s.data) : s ≠ "" := by
  intro hs
  subst hs
  obtain ⟨u, v, huv⟩ := h
  have h2 := List.append_eq_nil.mp huv
  have h3 := List.append_eq_nil.mp h2.1
  exact ht (String.ext h3.2)

theorem chain_ne_enumFrom {α : Type} (l : List α) :
    ∀ n, List.Chain' (fun a b : Nat × α => a.1 ≠ b.1)
      (List.enumFrom n l) := by
  induction l with
  | nil => intro n; simp
  | cons x rest ih =>
      intro n
      cases rest with
      | nil => simp
      | cons y r2 =>
          show List.Chain' (fun a b : Nat × α => a.1 ≠ b.1)
            ((n, x) :: (n + 1, y) :: List.enumFrom (n + 2) r2)
          rw [List.chain'_cons]
          refine ⟨by omega, ?_⟩
          exact ih (n + 1)

theorem concatTexts_synthFrom (injStream : String → Nat → String → String)
    (r : String) (toks : List String) :
    ∀ n, concatTexts ((List.enumFrom n toks).map
      (fun q => (⟨injStream r q.1 q.2, q.2, false⟩ : WPacket))) =
      joinAll toks := by
  induction toks with
  | nil => intro n; rfl
  | cons t rest ih =>
      intro n
      show t ++ concatTexts ((List.enumFrom (n + 1) rest).map
        (fun q => (⟨injStream r q.1 q.2, q.2, false⟩ : WPacket))) =
        t ++ joinAll rest
      rw [ih (n + 1)]

theorem closeAndProcess_not_collecting (records : List RRecord)
    (encodeTokens : String → List String)
    (injStream : String → Nat → String → String)
    (injFinish : String → String) (inc : List WPacket) (cur glob : String)
    (tf : Option WPacket) (q : List WPacket) :
    closeAndProcess records encodeTokens injStream injFinish
      ⟨inc, cur, glob, false, true, tf, q⟩ =
      ⟨[], "", glob ++ cur, false, true, tf, enqueueAll q inc⟩ := by
  rw [closeAndProcess, if_neg (by simp), if_neg (by simp)]

theorem closeAndProcess_collecting_unchanged (records : List RRecord)
    (encodeTokens : String → List String)
    (injStream : String → Nat → String → String)
    (injFinish : String → String) (inc : List WPacket) (cur glob : String)
    (fin : WPacket) (q : List WPacket) (l : WPacket)
    (hcur : cur ≠ "")
    (hpr : (applyReplaceRulesToString records cur).2 = false)
    (hl : inc.getLast? = some l) (hlf : l.isFinish = false)
    (hfin : fin.isFinish = true) :
    closeAndProcess records encodeTokens injStream injFinish
      ⟨inc, cur, glob, true, true, some fin, q⟩ =
      ⟨[], cur, glob ++ (applyReplaceRulesToString records cur).1, true,
        true, some fin, enqueueAll q (inc ++ [fin])⟩ := by
  rw [closeAndProcess, if_neg (by simp), if_pos ⟨rfl, hcur⟩]
  simp only [hpr, hl, hlf, hfin, Bool.false_eq_true, if_neg, ite_false,
    Option.getD_some]
  simp [hfin]

theorem closeAndProcess_collecting_changed (records : List RRecord)
    (encodeTokens : String → List String)
    (injStream : String → Nat → String → String)
    (injFinish : String → String) (templ : WPacket) (rest : List WPacket)
    (cur glob : String) (fin : WPacket) (q : List WPacket)
    (hcur : cur ≠ "")
    (hpr : (applyReplaceRulesToString records cur).2 = true) :
    closeAndProcess records encodeTokens injStream injFinish
      ⟨templ :: rest, cur, glob, true, true, some fin, q⟩ =
      ⟨[], cur, glob ++ (applyReplaceRulesToString records cur).1, true,
        true, some fin,
        enqueueAll q
          (((encodeTokens (applyReplaceRulesToString records cur).1).enum.map
            (fun p => (⟨injStream templ.raw p.1 p.2, p.2, false⟩ :
              WPacket))) ++
            [⟨injFinish fin.raw, fin.text, fin.isFinish⟩])⟩ := by
  rw [closeAndProcess, if_neg (by simp), if_pos ⟨rfl, hcur⟩]
  simp only [hpr, if_pos, ite_true, List.head?_cons, synthFinish]

/-- Claim C1 (amended): for every streamed response, the concatenation of
the message-path texts written downstream after finalization equals the
inbound text concatenation with the substitution rule set applied only to
the collected tail — the suffix accumulated from the moment a trigger
matched (the claim as stated, with the rules applied to the whole inbound
concatenation, fails: text flushed before a trigger fires passes through
verbatim, see the counterexample).  Side conditions: adjacent frames (and
the re-synthesized frames, whose wire data carry fresh created-at stamps)
have pairwise-distinct wire data so the duplicate guard never fires, and
decoding the re-tokenized replacement concatenates back to it. -/
theorem c1_rules_apply_to_collected_tail (records : List RRecord)
    (maxTrigLen : Nat) (encodeTokens : String → List String)
    (injStream : String → Nat → String → String)
    (injFinish : String → String) (streams : List WPacket) (fin : WPacket)
    (hstream : ∀ p ∈ streams, p.isFinish = false)
    (hfin : fin.isFinish = true) (hfintext : fin.text = "")
    (hchain : List.Chain' rawNe (streams ++ [fin]))
    (hrt : ∀ s, joinAll (encodeTokens s) = s)
    (hinj1 : ∀ r i t j u, i ≠ j → injStream r i t ≠ injStream r j u)
    (hinj2 : ∀ r i t, ∀ p ∈ streams ++ [fin], injStream r i t ≠ p.raw)
    (hinj3 : ∀ r r2 i t, injFinish r ≠ injStream r2 i t)
    (hinj4 : ∀ r, ∀ p ∈ streams ++ [fin], injFinish r ≠ p.raw) :
    ∃ pre tail,
      concatTexts (streams ++ [fin]) = pre ++ tail ∧
      concatTexts ((runWriter records maxTrigLen encodeTokens injStream
        injFinish (streams ++ [fin])).outQ) =
      pre ++ (if (runWriter records maxTrigLen encodeTokens injStream
          injFinish (streams ++ [fin])).collecting = true
        then (applyReplaceRulesToString records tail).1 else tail) := by
  have hchain_s : List.Chain' rawNe streams :=
    (List.chain'_append.mp hchain).1
  obtain ⟨fl, pe, c, hsplit, hstate, hcond⟩ :=
    writer_fold_shape records maxTrigLen streams hstream hchain_s
  have hall : concatTexts (streams ++ [fin]) =
      concatTexts fl ++ concatTexts pe := by
    rw [concatTexts_append, hsplit, concatTexts_append]
    simp [concatTexts, hfintext]
  rw [runWriter, List.foldl_append, hstate, List.foldl_cons, List.foldl_nil,
    wstep, if_pos (by simp [hfin])]
  cases c with
  | false =>
      have h1 : enqueueAll fl pe = fl ++ pe := by
        apply enqueueAll_eq_append
        rw [← hsplit]
        exact hchain_s
      have h2 : enqueuePacket (fl ++ pe) fin = (fl ++ pe) ++ [fin] := by
        apply enqueuePacket_eq_append
        intro last hlast
        exact (List.chain'_append.mp hchain).2.2 last
          (by rw [hsplit]; exact hlast) fin (Option.mem_def.mpr rfl)
      have hw2 : writeFinish
          ⟨pe, concatTexts pe, concatTexts fl, false, false, none, fl⟩ fin =
          ⟨[], "", concatTexts fl ++ concatTexts pe, false, true, some fin,
            (fl ++ pe) ++ [fin]⟩ := by
        rw [writeFinish]
        simp only [Bool.false_eq_true, if_neg, ite_false]
        rw [h1, h2]
      rw [hw2, closeAndProcess_not_collecting]
      refine ⟨concatTexts fl ++ concatTexts pe, "", by rw [hall]; simp, ?_⟩
      show concatTexts (enqueueAll ((fl ++ pe) ++ [fin]) []) =
        (concatTexts fl ++ concatTexts pe) ++
          (if false = true then
            (applyReplaceRulesToString records "").1 else "")
      show concatTexts ((fl ++ pe) ++ [fin]) = _
      rw [if_neg (by simp)]
      rw [concatTexts_append, concatTexts_append]
      simp [concatTexts, hfintext]
  | true =>
      obtain ⟨hpe, rec0, hrec0, hne0, hinf0⟩ := hcond rfl
      have hbn : concatTexts pe ≠ "" := ne_empty_of_infix hne0 hinf0
      have hw2 : writeFinish
          ⟨pe, concatTexts pe, concatTexts fl, true, false, none, fl⟩ fin =
          ⟨pe, concatTexts pe, concatTexts fl, true, true, some fin, fl⟩ :=
        rfl
      rw [hw2]
      have hchain_fl : List.Chain' rawNe fl := by
        have := hchain_s
        rw [hsplit] at this
        exact (List.chain'_append.mp this).1
      have hfl_mem : ∀ x ∈ fl, x ∈ streams ++ [fin] := by
        intro x hx
        apply List.mem_append_left
        rw [hsplit]
        exact List.mem_append_left _ hx
      cases hpr : (applyReplaceRulesToString records (concatTexts pe)).2 with
      | false =>
          obtain ⟨l, hl⟩ : ∃ l, pe.getLast? = some l := by
            cases hgl : pe.getLast? with
            | none => exact absurd (List.getLast?_eq_none_iff.mp hgl) hpe
            | some l => exact ⟨l, rfl⟩
          have hlf : l.isFinish = false := by
            apply hstream
            rw [hsplit]
            exact List.mem_append_right _ (mem_of_mem_getLastQ
              (Option.mem_def.mpr hl))
          rw [closeAndProcess_collecting_unchanged records encodeTokens
            injStream injFinish pe (concatTexts pe) (concatTexts fl) fin fl
            l hbn hpr hl hlf hfin]
          have henq : enqueueAll fl (pe ++ [fin]) = fl ++ (pe ++ [fin]) := by
            apply enqueueAll_eq_append
            rw [← List.append_assoc, ← hsplit]
            exact hchain
          rw [henq]
          refine ⟨concatTexts fl, concatTexts pe, hall, ?_⟩
          show concatTexts (fl ++ (pe ++ [fin])) = _
          rw [if_pos rfl, applyReplaceRules_unchanged records _ hpr]
          rw [concatTexts_append, concatTexts_append]
          simp [concatTexts, hfintext]
      | true =>
          obtain ⟨templ, rest, rfl⟩ : ∃ t r, pe = t :: r := by
            cases pe with
            | nil => exact absurd rfl hpe
            | cons t r => exact ⟨t, r, rfl⟩
          rw [closeAndProcess_collecting_changed records encodeTokens
            injStream injFinish templ rest (concatTexts (templ :: rest))
            (concatTexts fl) fin fl hbn hpr]
          set repl := (applyReplaceRulesToString records
            (concatTexts (templ :: rest))).1 with hrepl
          set toks := encodeTokens repl with htoks
          set mapped := toks.enum.map
            (fun p => (⟨injStream templ.raw p.1 p.2, p.2, false⟩ :
              WPacket)) with hmapped
          set sf := (⟨injFinish fin.raw, fin.text, fin.isFinish⟩ :
            WPacket) with hsf
          have hmapped_raw : ∀ x ∈ mapped, ∃ i t,
              x.raw = injStream templ.raw i t := by
            intro x hx
            rw [hmapped] at hx
            obtain ⟨p, _, rfl⟩ := List.mem_map.mp hx
            exact ⟨p.1, p.2, rfl⟩
          have hchain_m : List.Chain' rawNe mapped := by
            rw [hmapped]
            rw [List.chain'_map]
            apply List.Chain'.imp ?_ (chain_ne_enumFrom toks 0)
            intro a b hab
            exact hinj1 templ.raw a.1 a.2 b.1 b.2 hab
          have hchain_pkts : List.Chain' rawNe (mapped ++ [sf]) := by
            rw [List.chain'_append]
            refine ⟨hchain_m, by simp, ?_⟩
            intro x hx y hy
            obtain ⟨i, t, hxr⟩ := hmapped_raw x (mem_of_mem_getLastQ hx)
            have hy2 : sf = y := by simpa using Option.mem_def.mp hy
            rw [← hy2]
            show x.raw ≠ sf.raw
            rw [hxr]
            exact (hinj3 fin.raw templ.raw i t).symm
          have henq : enqueueAll fl (mapped ++ [sf]) =
              fl ++ (mapped ++ [sf]) := by
            apply enqueueAll_eq_append
            rw [List.chain'_append]
            refine ⟨hchain_fl, hchain_pkts, ?_⟩
            intro x hx y hy
            have hxmem : x ∈ streams ++ [fin] :=
              hfl_mem x (mem_of_mem_getLastQ hx)
            cases htk : toks with
            | nil =>
                have hm : mapped = [] := by rw [hmapped, htk]; rfl
                rw [hm] at hy
                have hy2 : sf = y := by simpa using Option.mem_def.mp hy
                rw [← hy2]
                show x.raw ≠ sf.raw
                exact (hinj4 fin.raw x hxmem).symm
            | cons t0 ts =>
                have hy2 : (⟨injStream templ.raw 0 t0, t0, false⟩ :
                    WPacket) = y := by
                  rw [hmapped, htk] at hy
                  simpa [List.enum] using Option.mem_def.mp hy
                rw [← hy2]
                show x.raw ≠ injStream templ.raw 0 t0
                exact (hinj2 templ.raw 0 t0 x hxmem).symm
          rw [henq]
          refine ⟨concatTexts fl, concatTexts (templ :: rest), hall, ?_⟩
          show concatTexts (fl ++ (mapped ++ [sf])) = _
          rw [if_pos rfl]
          rw [concatTexts_append, concatTexts_append]
          have hcm : concatTexts mapped = joinAll toks := by
            rw [hmapped]
            exact concatTexts_synthFrom injStream templ.raw toks 0
          rw [hcm, htoks, hrt]
          simp [concatTexts, hsf, hfintext, hrepl]

/-- The letter substitution used in the counterexample run: map every
occurrence of the character a to b. -/
def chAB : String → String := fun s =>
  ⟨s.data.map (fun c => if c = 'a' then 'b' else c)⟩

/-- A rule that fires exactly on texts containing the character a. -/
def ruleA : RRule := ⟨fun s => s.data.contains 'a', chAB⟩

/-- A record with literal trigger T carrying that single rule. -/
def recT : RRecord := ⟨"T", [ruleA]⟩

/-- A stream frame whose text is the single character a. -/
def pA : WPacket := ⟨"ra", "a", false⟩

/-- A stream frame whose text is the trigger character T. -/
def pT : WPacket := ⟨"rt", "T", false⟩

/-- Claim C1 counterexample: with trigger T, one a-to-b rule and trigger
window 1, the run a, T, finish flushes the frame carrying a downstream
before the trigger fires, so the net downstream text is aT — but applying
the rule set to the whole inbound concatenation aT yields bT.  The claim
equates the two, and they differ. -/
theorem c1_counterexample :
    concatTexts ((runWriter [recT] 1 (fun s => [s]) (fun _ _ _ => "S")
      (fun _ => "F") [pA, pT, pFin]).outQ) = "aT" ∧
    (applyReplaceRulesToString [recT]
      (concatTexts [pA, pT, pFin])).1 = "bT" ∧
    ("aT" : String) ≠ "bT" := by
  refine ⟨by decide, by decide, by decide⟩

/-- Claim C1 witness: the amended theorem instantiated on the one-frame
response consisting of the finish frame alone, with singleton tokenization
and injections whose outputs start with characters no inbound wire datum
starts with. -/
theorem c1_witness :
    ∃ pre tail,
      concatTexts (([] : List WPacket) ++ [pFin]) = pre ++ tail ∧
      concatTexts ((runWriter ([] : List RRecord) 1 (fun s => [s])
        (fun r i t => (⟨'x' :: List.replicate i 'y'⟩ : String))
        (fun r => "F") (([] : List WPacket) ++ [pFin])).outQ) =
      pre ++ (if (runWriter ([] : List RRecord) 1 (fun s => [s])
          (fun r i t => (⟨'x' :: List.replicate i 'y'⟩ : String))
          (fun r => "F") (([] : List WPacket) ++ [pFin])).collecting = true
        then (applyReplaceRulesToString ([] : List RRecord) tail).1
        else tail) := by
  apply c1_rules_apply_to_collected_tail
  · intro p hp
    simp at hp
  · rfl
  · rfl
  · simp
  · intro s
    simp [joinAll]
  · intro r i t j u hij hc
    have h2 : ('x' :: List.replicate i 'y') =
        ('x' :: List.replicate j 'y') := congrArg String.data hc
    have h3 : i = j := by simpa using congrArg List.length h2
    exact hij h3
  · intro r i t p hp hc
    have hp2 : p = pFin := by simpa using hp
    subst hp2
    have h2 : ('x' :: List.replicate i 'y') =
        (['[', 'D', 'O', 'N', 'E', ']'] : List Char) :=
      congrArg String.data hc
    simp at h2
  · intro r r2 i t hc
    have h2 : (['F'] : List Char) = 'x' :: List.replicate i 'y' :=
      congrArg String.data hc
    simp at h2
  · intro r p hp hc
    have hp2 : p = pFin := by simpa using hp
    subst hp2
    exact absurd hc (by decide)

end RagProxy
